import Mathlib

/-!
Verification of the abstract-recovery pipeline of the `lit-review` scripts
(`zotero_abstract_fetcher.py` and `zotero_pdf_abstract_extractor.py`).

Strings are modelled as `List Char` (`Str`).  Python string operations
(`strip`, `rstrip`, `startswith`, slicing) and the concrete regular
expressions used by the scripts are embedded as executable Lean functions,
translated operation by operation from the source.  The ledger parser
`parse_abstract_updates_file` is modelled with an explicit heap of dicts so
that Python's reference semantics (the current item is a mutable dict that
may be appended to the result list and mutated afterwards) is visible.
-/

set_option maxHeartbeats 1000000
set_option maxRecDepth 10000

abbrev Str := List Char

/-- Whitespace characters as matched by Python's `str.strip()` and `\s`
for ASCII text: space, tab, newline, carriage return, vertical tab, form feed. -/
def isWs (c : Char) : Bool :=
  c = ' ' || c = '\t' || c = '\n' || c = '\r' || c.val = 11 || c.val = 12

/-- Word characters as matched by Python's `\b` boundary logic (ASCII model
of `\w`): letters, digits, underscore. -/
def isWordChar (c : Char) : Bool :=
  c.isAlphanum || c = '_'

/-- Boolean "string starts with" on the char-list model: does `hay` start
with `needle`?  Models Python `str.startswith` and anchored literal regexes. -/
def strStarts : Str → Str → Bool
  | [], _ => true
  | _ :: _, [] => false
  | a :: as, b :: bs => if a = b then strStarts as bs else false

/-- Drop the longest suffix of `l` whose characters all satisfy `p`
(a right-to-left `dropWhile`); models Python `str.rstrip`. -/
def rdropWhile (p : Char → Bool) (l : Str) : Str :=
  (l.reverse.dropWhile p).reverse

/-- Python `str.strip()`: remove leading and trailing whitespace. -/
def pstrip (s : Str) : Str :=
  rdropWhile isWs (s.dropWhile isWs)

/-- The four literal resolver address forms matched by the anchored regex
`^https?://(dx\.)?doi\.org/` in `clean_doi`. -/
def resolverForms : List Str :=
  [ "http://doi.org/".data, "https://doi.org/".data,
    "http://dx.doi.org/".data, "https://dx.doi.org/".data ]

/-- First regex substitution of `clean_doi`: remove a leading resolver URL
(at most one form can match; the regex is anchored, so one removal). -/
def stripResolver (s : Str) : Str :=
  match resolverForms.find? (fun p => strStarts p s) with
  | some p => s.drop p.length
  | none => s

/-- Second regex substitution of `clean_doi`: remove one leading `doi:` label,
case-insensitively (regex `^doi:` with `re.IGNORECASE`). -/
def stripDoiLabel (s : Str) : Str :=
  match s with
  | d :: o :: i :: c :: rest =>
      if (d = 'd' || d = 'D') && (o = 'o' || o = 'O') && (i = 'i' || i = 'I') && c = ':' then
        rest
      else s
  | _ => s

/-- The trailing punctuation set of `clean_doi`'s `rstrip('.,;:')`. -/
def isTrailPunct (c : Char) : Bool :=
  c = '.' || c = ',' || c = ';' || c = ':'

/-- `clean_doi` from both scripts (identical code): strip a resolver URL,
strip a `doi:` label, strip trailing `.,;:` punctuation, strip whitespace. -/
def clean_doi (s : Str) : Str :=
  pstrip (rdropWhile isTrailPunct (stripDoiLabel (stripResolver s)))


/-! ## Ledger parser (`parse_abstract_updates_file`)

The parser is identical in both scripts.  Lines are processed in order; a
current dict accumulates `citation` / `title` / `doi` / `abstract` keys and
is appended (by reference) to the result list when a new `Processing [` line
arrives and the dict already holds both `doi` and `abstract`.  Python's
reference semantics matters: appending does not copy the dict, so we keep an
explicit heap of dicts and a list of references. -/

/-- Exactly `n` digits (regex `\d{n}` followed by a non-optional literal):
consume `n` digit characters or fail. -/
def expectDigits : Nat → Str → Option Str
  | 0, s => some s
  | _ + 1, [] => none
  | n + 1, c :: r => if c.isDigit then expectDigits n r else none

/-- One-or-more digits (`\d+`) followed by a non-digit: consume the maximal
digit run (maximal munch is equivalent to the regex here because the next
pattern element is never a digit). -/
def digits1 : Str → Option Str
  | [] => none
  | c :: r => if c.isDigit then some (r.dropWhile (·.isDigit)) else none

/-- Anchored literal: if `s` starts with `lit`, the rest after it. -/
def dropLit (lit s : Str) : Option Str :=
  if strStarts lit s then some (s.drop lit.length) else none

/-- Python's `$` without `re.MULTILINE` for a final `(.*)$` group: the match
succeeds if the rest holds no newline, or exactly one newline at its very
end (which is then excluded from the group). -/
def dollarAny (r : Str) : Option Str :=
  if '\n' ∈ r then
    if r.getLast? = some '\n' && decide ('\n' ∉ r.dropLast) then some r.dropLast else none
  else some r

/-- The same for a final `(.+)$` group: the group must be nonempty. -/
def dollarSome (r : Str) : Option Str :=
  match dollarAny r with
  | some g => if g = [] then none else some g
  | none => none

/-- The log-line stamp regex of the parser,
`^\d{4}-\d{2}-\d{2} \d{2}:\d{2}:\d{2},\d{3} - INFO - (.*)$` (`re.match`):
on success, the captured rest of the line. -/
def matchLogStamp (l : Str) : Option Str :=
  match expectDigits 4 l with
  | some ('-' :: r1) =>
    match expectDigits 2 r1 with
    | some ('-' :: r2) =>
      match expectDigits 2 r2 with
      | some (' ' :: r3) =>
        match expectDigits 2 r3 with
        | some (':' :: r4) =>
          match expectDigits 2 r4 with
          | some (':' :: r5) =>
            match expectDigits 2 r5 with
            | some (',' :: r6) =>
              match expectDigits 3 r6 with
              | some r7 =>
                match dropLit " - INFO - ".data r7 with
                | some rest => dollarAny rest
                | none => none
              | none => none
            | _ => none
          | _ => none
        | _ => none
      | _ => none
    | _ => none
  | _ => none

/-- The citation-extraction regex `Processing \[\d+/\d+\] (.+)$`, attempted
at one position (`re.search` tries this at every position, leftmost wins). -/
def matchProcAt (s : Str) : Option Str :=
  match dropLit "Processing [".data s with
  | none => none
  | some r1 =>
    match digits1 r1 with
    | none => none
    | some r2 =>
      match r2 with
      | '/' :: r3 =>
        match digits1 r3 with
        | none => none
        | some r4 =>
          match r4 with
          | ']' :: ' ' :: r5 => dollarSome r5
          | _ => none
      | _ => none

/-- `re.search` of the citation regex: leftmost position at which
`matchProcAt` succeeds. -/
def searchProc : Str → Option Str
  | [] => none
  | c :: cs =>
    match matchProcAt (c :: cs) with
    | some r => some r
    | none => searchProc cs

/-- One parser dict (`current_item`): the keys it may hold.  A key being
present in the Python dict is a `some` field here. -/
structure RawItem where
  citation : Option Str
  title : Option Str
  doi : Option Str
  abstract : Option Str
deriving DecidableEq, Repr

def emptyRaw : RawItem := ⟨none, none, none, none⟩

/-- The flush guard `current_item and 'doi' in current_item and 'abstract' in
current_item`: for this dict shape, equivalent to both keys being present
(a dict holding `doi` is nonempty, hence truthy). -/
def isComplete (d : RawItem) : Bool :=
  d.doi.isSome && d.abstract.isSome

/-- Parser state: the heap of all dicts ever created (index = identity),
the index of `current_item`, and the list of references appended to
`updates` so far. -/
structure PState where
  heap : List RawItem
  cur : Nat
  upds : List Nat
deriving Repr

/-- Initial state: `updates = []`, `current_item = {}`. -/
def initPS : PState := ⟨[emptyRaw], 0, []⟩

/-- A raw file line after `line.rstrip('\n')` and the optional log-stamp
removal — the content the parser's branch tests look at. -/
def contentOf (l : Str) : Str :=
  let l0 := rdropWhile (fun c => c = '\n') l
  match matchLogStamp l0 with
  | some r => r
  | none => l0

/-- One iteration of the parser loop on one line, translated branch by
branch from `parse_abstract_updates_file`. -/
def pstep (s : PState) (l : Str) : PState :=
  let cl := contentOf l
  if cl = [] then s
  else if strStarts "=".data cl then s
  else if strStarts "-".data cl then s
  else if strStarts "Processing [".data cl then
    let u' := if isComplete (s.heap.getD s.cur emptyRaw) then s.upds ++ [s.cur] else s.upds
    match searchProc cl with
    | some cit => ⟨s.heap ++ [⟨some cit, none, none, none⟩], s.heap.length, u'⟩
    | none => ⟨s.heap, s.cur, u'⟩
  else
    let t := pstrip cl
    if strStarts "Title:".data t then
      ⟨s.heap.set s.cur { s.heap.getD s.cur emptyRaw with title := some (pstrip (t.drop 6)) },
        s.cur, s.upds⟩
    else if strStarts "DOI:".data t then
      ⟨s.heap.set s.cur { s.heap.getD s.cur emptyRaw with doi := some (pstrip (t.drop 4)) },
        s.cur, s.upds⟩
    else if strStarts "Abstract:".data t then
      ⟨s.heap.set s.cur { s.heap.getD s.cur emptyRaw with abstract := some (pstrip (t.drop 9)) },
        s.cur, s.upds⟩
    else s

/-- State after the whole line loop. -/
def runParse (lines : List Str) : PState :=
  lines.foldl pstep initPS

/-- The final flush after the loop (`if current_item and 'doi' in ... `):
the references appended to `updates` over the whole parse. -/
def finalRefs (s : PState) : List Nat :=
  if isComplete (s.heap.getD s.cur emptyRaw) then s.upds ++ [s.cur] else s.upds

/-- References appended to `updates` by parsing `lines`. -/
def parseRefs (lines : List Str) : List Nat :=
  finalRefs (runParse lines)

/-- The parse result as the caller sees it: each appended reference read
from the final heap (Python returns the dict objects, which may have been
mutated after being appended). -/
def parseLines (lines : List Str) : List RawItem :=
  (parseRefs lines).map (fun i => (runParse lines).heap.getD i emptyRaw)

/-- `parse_abstract_updates_file`: `none` models a missing file.  For an
existing file the parse runs and, per `return updates if updates else None`,
an empty result is turned back into `None`. -/
def parse_abstract_updates_file (file : Option (List Str)) : Option (List RawItem) :=
  match file with
  | none => none
  | some lines =>
    let u := parseLines lines
    if u = [] then none else some u

/-- Run mode of `run()`. -/
inductive RunMode where
  | replay
  | discovery
deriving DecidableEq, Repr

/-- Python truthiness of the value returned by the parser
(`if updates_from_file:`). -/
def optTruthy (o : Option (List RawItem)) : Bool :=
  match o with
  | none => false
  | some l => decide (l ≠ [])

/-- Mode selection at the start of `run()`: replay the ledger when the
parsed updates are truthy, otherwise fall through to discovery. -/
def run_mode (file : Option (List Str)) : RunMode :=
  if optTruthy (parse_abstract_updates_file file) then RunMode.replay else RunMode.discovery


/-! ## Ledger serialization

In dry-run replay / discovery, the scripts log, per processed item, the
lines `Processing [i/N] {citation}`, `  Title: {title}`, `  DOI: {doi}`,
`  [DRY RUN] Would update abstract for {citation} ({n} chars)` and
`  Abstract: {abstract}`; the operator copies this log to the ledger file.
We embed that five-line block as the serializer. -/

/-- Decimal digit character for `n < 10`. -/
def digitChar (n : Nat) : Char := Char.ofNat (48 + n)

/-- Decimal rendering of a natural number (fuel-driven; `fuel > n` suffices). -/
def natDigitsAux : Nat → Nat → Str → Str
  | 0, _, acc => acc
  | fuel + 1, n, acc =>
    if n < 10 then digitChar n :: acc
    else natDigitsAux fuel (n / 10) (digitChar (n % 10) :: acc)

/-- Decimal rendering of a natural number, as logged by the f-strings. -/
def natDigits (n : Nat) : Str := natDigitsAux (n + 1) n []

/-- One ledger entry as the serializer sees it (all four fields known). -/
structure LedgerEntry where
  citation : Str
  title : Str
  doi : Str
  abstract : Str
deriving DecidableEq, Repr

/-- The parser dict a fully serialized-and-reparsed entry should become. -/
def dictOf (e : LedgerEntry) : RawItem :=
  ⟨some e.citation, some e.title, some e.doi, some e.abstract⟩

def dicts (es : List LedgerEntry) : List RawItem := es.map dictOf

/-- The five log lines emitted for item `i` of `N` (dry-run path of
`update_zotero_abstract` plus the per-item lines of the processing loop). -/
def entryBlock (i N : Nat) (e : LedgerEntry) : List Str :=
  [ "Processing [".data ++ (natDigits i ++ '/' :: (natDigits N ++ ']' :: ' ' :: e.citation)),
    "  Title: ".data ++ e.title,
    "  DOI: ".data ++ e.doi,
    ' ' :: ' ' :: '[' :: ("DRY RUN] Would update abstract for ".data
      ++ (e.citation ++ ' ' :: '(' :: (natDigits e.abstract.length ++ " chars)".data))),
    "  Abstract: ".data ++ e.abstract ]

/-- Serialize entries numbered from `i` out of `N`. -/
def serializeFrom (i N : Nat) : List LedgerEntry → List Str
  | [] => []
  | e :: es => entryBlock i N e ++ serializeFrom (i + 1) N es

/-- Serialize a whole run's worth of entries (1-based numbering). -/
def serializeEntries (es : List LedgerEntry) : List Str :=
  serializeFrom 1 es.length es

/-- Count of `Processing [` marker lines in an input, as the claims count
them. -/
def countMarkers (lines : List Str) : Nat :=
  (lines.filter (fun l => strStarts "Processing [".data l)).length

/-- The no-embedded-newline precondition the round-trip claim places on an
entry's fields. -/
def noNlEntry (e : LedgerEntry) : Prop :=
  '\n' ∉ e.citation ∧ '\n' ∉ e.title ∧ '\n' ∉ e.doi ∧ '\n' ∉ e.abstract

/-- The strengthened precondition under which the round-trip is exact:
no newlines, a nonempty citation, and title/doi/abstract unchanged by
whitespace-stripping. -/
def goodEntry (e : LedgerEntry) : Prop :=
  e.citation ≠ [] ∧ '\n' ∉ e.citation ∧
  pstrip e.title = e.title ∧ '\n' ∉ e.title ∧
  pstrip e.doi = e.doi ∧ '\n' ∉ e.doi ∧
  pstrip e.abstract = e.abstract ∧ '\n' ∉ e.abstract

instance (e : LedgerEntry) : Decidable (noNlEntry e) := by
  unfold noNlEntry; infer_instance

instance (e : LedgerEntry) : Decidable (goodEntry e) := by
  unfold goodEntry; infer_instance

def goodList (es : List LedgerEntry) : Prop := ∀ e ∈ es, goodEntry e

instance (es : List LedgerEntry) : Decidable (goodList es) := by
  unfold goodList; infer_instance






/-! ## PDF abstract segmenter (`_find_abstract_in_text`, `_clean_abstract`)

The start patterns `\b<words>\b[:\s]*` and the eight end patterns are
embedded as direct scanners.  Every search runs with `re.IGNORECASE`
(end patterns additionally with `re.MULTILINE`); maximal-munch scanning is
equivalent to the regex backtracking here because each quantified class is
disjoint from the pattern element that follows it. -/

/-- Case-insensitive literal word match: `w` is lowercase; consume it. -/
def dropWordCI : Str → Str → Option Str
  | [], s => some s
  | _ :: _, [] => none
  | w :: ws, c :: cs => if c.toLower = w then dropWordCI ws cs else none

/-- A sequence of words separated by `\s+` (as in `Executive\s+Summary`). -/
def dropWordsCI : List Str → Str → Option Str
  | [], s => some s
  | [w], s => dropWordCI w s
  | w :: w2 :: ws, s =>
    match dropWordCI w s with
    | none => none
    | some r =>
      match r with
      | [] => none
      | c :: cs => if isWs c then dropWordsCI (w2 :: ws) (cs.dropWhile isWs) else none

/-- Word-boundary test for the character before the match position. -/
def boundaryOK (prev : Option Char) : Bool :=
  match prev with
  | none => true
  | some c => !isWordChar c

/-- A start pattern `\b<words>\b[:\s]*` attempted at one position (with the
character before that position supplied for the boundary test); on success,
the text after `match.end()`. -/
def startAt (words : List Str) (prev : Option Char) (s : Str) : Option Str :=
  if boundaryOK prev then
    match dropWordsCI words s with
    | none => none
    | some r =>
      match r with
      | [] => some []
      | c :: cs =>
        if isWordChar c then none
        else some ((c :: cs).dropWhile (fun x => x = ':' || isWs x))
  else none

/-- `re.search` for a start pattern: leftmost matching position wins. -/
def searchStart (words : List Str) : Option Char → Str → Option Str
  | _, [] => none
  | prev, c :: cs =>
    match startAt words prev (c :: cs) with
    | some r => some r
    | none => searchStart words (some c) cs

/-- `ABSTRACT_START_PATTERNS`, in source order (under `re.IGNORECASE` the
all-caps variants repeat the first five patterns' behavior). -/
def startMarkers : List (List Str) :=
  [ ["abstract".data], ["summary".data],
    ["executive".data, "summary".data], ["management".data, "summary".data],
    ["synopsis".data],
    ["abstract".data], ["summary".data],
    ["executive".data, "summary".data], ["management".data, "summary".data] ]

/-- Generic leftmost scan: the least index at which `f prev suffix` holds. -/
def scanIdx (f : Option Char → Str → Bool) : Nat → Option Char → Str → Option Nat
  | _, _, [] => none
  | i, prev, c :: cs => if f prev (c :: cs) then some i else scanIdx f (i + 1) (some c) cs

/-- After some consumed words, `\s*:`. -/
def wsColon (r : Str) : Bool :=
  match r.dropWhile isWs with
  | ':' :: _ => true
  | _ => false

/-- End pattern 1, `\b(Keywords?|Key\s*words?)\s*:` at one position. -/
def endKeywordsAt (prev : Option Char) (s : Str) : Bool :=
  boundaryOK prev &&
    (match dropWordCI "key".data s with
     | none => false
     | some r =>
       match dropWordCI "word".data (r.dropWhile isWs) with
       | none => false
       | some r2 =>
         wsColon r2 ||
           (match r2 with
            | c :: cs => (c = 's' || c = 'S') && wsColon cs
            | [] => false))

/-- `\s*$` under `re.MULTILINE`: the whitespace run from here reaches end of
text or contains a newline (`$` matches before any newline). -/
def wsEol (r : Str) : Bool :=
  (r.dropWhile isWs) = [] || '\n' ∈ r.takeWhile isWs

/-- Optional trailing `s` then `\s*$` (for `Contents?\s*$`). -/
def optSEol (r : Str) : Bool :=
  wsEol r ||
    (match r with
     | c :: cs => (c = 's' || c = 'S') && wsEol cs
     | [] => false)

/-- End pattern 2, `\b(Table\s+of\s+Contents?|...|Contents?)\s*$`. -/
def endContentsAt (prev : Option Char) (s : Str) : Bool :=
  boundaryOK prev &&
    ((match dropWordsCI ["table".data, "of".data, "content".data] s with
      | some r => optSEol r
      | none => false) ||
     (match dropWordCI "content".data s with
      | some r => optSEol r
      | none => false))

/-- A whole word with boundaries on both sides (`\bIntroduction\b` etc.). -/
def endWordAt (w : Str) (prev : Option Char) (s : Str) : Bool :=
  boundaryOK prev &&
    (match dropWordCI w s with
     | none => false
     | some r =>
       match r with
       | [] => true
       | c :: _ => !isWordChar c)

/-- End pattern 5/6, `\b1\.\s*Introduction` / `\bI\.\s*Introduction` (the
lead character is given). -/
def endNumIntroAt (lead : Char → Bool) (prev : Option Char) (s : Str) : Bool :=
  boundaryOK prev &&
    (match s with
     | c :: '.' :: r =>
       lead c && (dropWordCI "introduction".data (r.dropWhile isWs)).isSome
     | _ => false)

/-- End pattern 7, `^\s*\d+\.\s+[A-Z]` (with MULTILINE `^`, and `[A-Z]`
made case-insensitive by the `re.IGNORECASE` flag on the search). -/
def endNumberedAt (prev : Option Char) (s : Str) : Bool :=
  (match prev with
   | none => true
   | some c => c = '\n') &&
    (match s.dropWhile isWs with
     | c :: _r =>
       c.isDigit &&
         (match (s.dropWhile isWs).dropWhile (·.isDigit) with
          | '.' :: r2 =>
            (match r2 with
             | c2 :: _ =>
               isWs c2 &&
                 (match r2.dropWhile isWs with
                  | c3 :: _ => c3.isAlpha
                  | [] => false)
             | [] => false)
          | _ => false)
     | [] => false)

/-- End pattern 8, `\.\s*\.\s*\.\s*\.` (dotted TOC leaders). -/
def endDotsAt (_prev : Option Char) (s : Str) : Bool :=
  match s with
  | '.' :: r1 =>
    (match r1.dropWhile isWs with
     | '.' :: r2 =>
       (match r2.dropWhile isWs with
        | '.' :: r3 =>
          (match r3.dropWhile isWs with
           | '.' :: _ => true
           | _ => false)
        | _ => false)
     | _ => false)
  | _ => false

/-- `ABSTRACT_END_PATTERNS` as leftmost-match-index searches, source order. -/
def endSearches (r : Str) : List (Option Nat) :=
  [ scanIdx endKeywordsAt 0 none r,
    scanIdx endContentsAt 0 none r,
    scanIdx (endWordAt "introduction".data) 0 none r,
    scanIdx (endWordAt "background".data) 0 none r,
    scanIdx (endNumIntroAt (fun c => c = '1')) 0 none r,
    scanIdx (endNumIntroAt (fun c => c = 'i' || c = 'I')) 0 none r,
    scanIdx endNumberedAt 0 none r,
    scanIdx endDotsAt 0 none r ]

/-- The loop over end patterns: start from `len(remaining_text)` and keep
any strictly smaller match start. -/
def endBound (r : Str) : Nat :=
  (endSearches r).foldl
    (fun acc o => match o with | some i => if i < acc then i else acc | none => acc)
    r.length

/-- Whitespace-run collapsing, `re.sub(r'\s+', ' ', text)` (the `prevWs`
flag tells whether the previous character was part of a run already). -/
def cwAux : Bool → Str → Str
  | _, [] => []
  | prevWs, c :: cs =>
    if isWs c then
      if prevWs then cwAux true cs else ' ' :: cwAux true cs
    else c :: cwAux false cs

def collapseWs (s : Str) : Str := cwAux false s

/-- `re.sub(r'\d+\s*$', '', text)`: remove a final digit run plus trailing
whitespace, when a digit run is there. -/
def stripTrailNum (s : Str) : Str :=
  match s.reverse.dropWhile isWs with
  | c :: cs => if c.isDigit then ((c :: cs).dropWhile (·.isDigit)).reverse else s
  | [] => s

/-- `re.sub(r'^\s*[\d\-]+\s*', '', text)`: remove a leading whitespace run,
digit/dash run (at least one) and following whitespace run. -/
def stripLeadArtifact (s : Str) : Str :=
  match s.dropWhile isWs with
  | c :: cs =>
    if c.isDigit || c = '-' then
      ((c :: cs).dropWhile (fun x => x.isDigit || x = '-')).dropWhile isWs
    else s
  | [] => s

/-- `_clean_abstract`: collapse whitespace, strip a trailing page number,
strip a leading digits/dashes artifact, strip surrounding whitespace. -/
def clean_abstract (t : Str) : Str :=
  pstrip (stripLeadArtifact (stripTrailNum (collapseWs t)))

/-- `str.split()` word count: number of maximal non-whitespace runs. -/
def wcAux : Bool → Str → Nat
  | _, [] => 0
  | inW, c :: cs =>
    if isWs c then wcAux false cs
    else (if inW then 0 else 1) + wcAux true cs

def wordCount (s : Str) : Nat := wcAux false s

/-- The per-start-marker loop of `_find_abstract_in_text`. -/
def segLoop (text : Str) : List (List Str) → Option Str
  | [] => none
  | p :: ps =>
    match searchStart p none text with
    | none => segLoop text ps
    | some remaining =>
      let a := clean_abstract (pstrip (remaining.take (endBound remaining)))
      if 50 < wordCount a ∧ wordCount a < 1000 then some a else segLoop text ps

/-- `_find_abstract_in_text`: try the start markers in priority order,
validate the cleaned candidate's word count, `none` when exhausted. -/
def find_abstract_in_text (text : Str) : Option Str :=
  segLoop text startMarkers

/-- `n` one-letter words separated by single spaces (test text builder). -/
def repWords : Nat → Str
  | 0 => []
  | 1 => ['a']
  | n + 2 => 'a' :: ' ' :: repWords (n + 1)


/-! ## Reconciliation (`process_from_updates_file`, lines 375–429)

A Zotero item is modelled by the fields the matching code reads.  The DOI
lookup dict is an insertion-ordered association list where a later
assignment to the same key overwrites (lookup takes the last binding, as a
Python dict does). -/

structure ZItem where
  key : Str
  version : Nat
  doi : Str
  title : Str
deriving DecidableEq, Repr

/-- Python `dict.get`: the most recent binding of `k`, if any. -/
def dictGet (m : List (Str × ZItem)) (k : Str) : Option ZItem :=
  (m.reverse.find? (fun p => p.1 = k)).map (·.2)

/-- The DOI-to-item mapping: for every item whose stripped DOI is nonempty,
assign `doi_to_item[clean_doi(item_doi)] = item` then
`doi_to_item[item_doi] = item`. -/
def build_doi_map (items : List ZItem) : List (Str × ZItem) :=
  items.foldl
    (fun m it =>
      let itemDoi := pstrip it.doi
      if itemDoi = [] then m
      else m ++ [(clean_doi itemDoi, it), (itemDoi, it)])
    []

/-- The title key used by the fallback scan: `title.lower().strip()`. -/
def titleKey (t : Str) : Str := pstrip (t.map Char.toLower)

/-- The per-entry matching logic of `process_from_updates_file`: cleaned
DOI against the map, then the raw DOI (`.get(cleaned) or .get(doi)`; items
are nonempty dicts, hence truthy, so `or` is `Option.orElse`), then the
first item with an equal case-folded stripped title, else unmatched
(`none`; the code logs a warning and continues — no exception). -/
def find_matching_item (doi title : Str) (items : List ZItem) : Option ZItem :=
  let m := build_doi_map items
  match (dictGet m (clean_doi doi)).orElse (fun _ => dictGet m doi) with
  | some it => some it
  | none => items.find? (fun it => titleKey it.title = titleKey title)

/-- Resolution procedure as §4.5 of the specification words it: build a
mapping holding the normalized and the raw identifier of every record
(records without a usable identifier contribute nothing); (1) look up the
entry's identifier normalized, (2) look up the raw identifier, (3) scan for
the first record with an exactly equal case-folded whitespace-trimmed
title, (4) otherwise report unmatched. -/
def resolveSpec (doi title : Str) (items : List ZItem) : Option ZItem :=
  let m := build_doi_map items
  match dictGet m (clean_doi doi) with
  | some it => some it
  | none =>
    match dictGet m doi with
    | some it => some it
    | none =>
      match items.find? (fun it => titleKey it.title = titleKey title) with
      | some it => some it
      | none => none

def itemX : ZItem := ⟨"k1".data, 3, "10.1/X".data, "The Title".data⟩


/-! ## Update applier (`update_zotero_abstract`, fetcher lines 448–479)

The function's externally visible behavior: the statistics counters it
bumps, the write calls it issues to the library client, and its boolean
result.  A live write may fail (the library rejects it); that outcome is an
input to the model. -/

structure Stats where
  total_checked : Nat
  missing_abstract : Nat
  missing_abstract_with_doi : Nat
  abstracts_found : Nat
  abstracts_updated : Nat
  errors : Nat
deriving DecidableEq, Repr

structure ItemData where
  title : Str
  abstractNote : Str
deriving DecidableEq, Repr

structure WritePayload where
  key : Str
  version : Nat
  data : ItemData
deriving DecidableEq, Repr

structure ApplyResult where
  stats : Stats
  writes : List WritePayload
  ok : Bool
deriving DecidableEq, Repr

/-- `update_zotero_abstract`: in dry-run, log and count only; otherwise set
`abstractNote`, build the payload with the key and the fetched version, and
push it (on library rejection the exception path counts an error). -/
def update_zotero_abstract (itemKey : Str) (itemVersion : Nat) (abstract : Str)
    (itemData : ItemData) (dryRun : Bool) (writeAccepted : Bool) (st : Stats) : ApplyResult :=
  if dryRun then
    { stats := { st with abstracts_updated := st.abstracts_updated + 1 }, writes := [], ok := true }
  else
    let payload : WritePayload :=
      ⟨itemKey, itemVersion, { itemData with abstractNote := abstract }⟩
    if writeAccepted then
      { stats := { st with abstracts_updated := st.abstracts_updated + 1 },
        writes := [payload], ok := true }
    else
      { stats := { st with errors := st.errors + 1 }, writes := [payload], ok := false }

/-- A library state is the stored payload per item; applying a write
replaces the record with the matching key. -/
def applyWrites (lib : List WritePayload) (ws : List WritePayload) : List WritePayload :=
  ws.foldl (fun L w => L.map (fun it => if it.key = w.key then w else it)) lib

/-! ## Auxiliary definitions for the theorems -/

/-- `[s, s+1, ..., s+n-1]`: the heap indices flushed by a run of complete
entries. -/
def idxFrom : Nat → Nat → List Nat
  | _, 0 => []
  | s, n + 1 => s :: idxFrom (s + 1) n

/-- A log stamp assembled from its digit fields, shaped exactly as the
parser's stamp regex expects. -/
def stampOf (y mo dd hh mi ss ms : Str) : Str :=
  y ++ '-' :: mo ++ '-' :: dd ++ ' ' :: hh ++ ':' :: mi ++ ':' :: ss ++ ',' :: ms
    ++ " - INFO - ".data

/-- The digit fields of a well-formed stamp. -/
def goodStamp (y mo dd hh mi ss ms : Str) : Prop :=
  (y.length = 4 ∧ mo.length = 2 ∧ dd.length = 2 ∧ hh.length = 2 ∧ mi.length = 2 ∧
    ss.length = 2 ∧ ms.length = 3) ∧
  (∀ c ∈ y ++ mo ++ dd ++ hh ++ mi ++ ss ++ ms, c.isDigit = true)

instance (y mo dd hh mi ss ms : Str) : Decidable (goodStamp y mo dd hh mi ss ms) := by
  unfold goodStamp; infer_instance

/-- Marker well-formedness of an input: every line whose content starts
with `Processing [` carries a full `Processing [n/m] citation` marker. -/
def wfLines (lines : List Str) : Prop :=
  ∀ l ∈ lines, strStarts "Processing [".data (contentOf l) = true →
    (searchProc (contentOf l)).isSome = true

instance (lines : List Str) : Decidable (wfLines lines) := by
  unfold wfLines; infer_instance

/-- Parser state after the first `k` lines. -/
def stateAfter (lines : List Str) (k : Nat) : PState :=
  (lines.take k).foldl pstep initPS

/-- Concrete input used by several counterexamples: the ledger whose fifth
line starts with `Processing [` but carries no full marker. -/
def badMarkerInput : List Str :=
  List.map String.data
    ["Processing [1/2] A", "  Title: T", "  DOI: D", "  Abstract: X",
     "Processing [bad", "Processing [2/2] B", "  DOI: D2", "  Abstract: X2"]

/-! ## Helper lemmas: `dropWhile`, `rdropWhile`, `pstrip` -/

theorem mem_of_dropWhile {p : Char → Bool} {l : Str} {c : Char}
    (h : c ∈ l.dropWhile p) : c ∈ l :=
  List.Sublist.mem h (List.dropWhile_sublist p)

theorem dropWhile_cons_neg {p : Char → Bool} {c : Char} (h : p c = false) (l : Str) :
    (c :: l).dropWhile p = c :: l := by
  simp [List.dropWhile_cons, h]

theorem dropWhile_all {p : Char → Bool} {xs : Str} (h : ∀ c ∈ xs, p c = true) (ys : Str) :
    (xs ++ ys).dropWhile p = ys.dropWhile p := by
  induction xs with
  | nil => rfl
  | cons a as ih =>
    have ha : p a = true := h a (List.mem_cons_self a as)
    simp only [List.cons_append, List.dropWhile_cons, ha, if_true]
    exact ih (fun c hc => h c (List.mem_cons_of_mem a hc))

theorem dropWhile_eq_self_of_forall {p : Char → Bool} {l : Str}
    (h : ∀ c ∈ l, p c = false) : l.dropWhile p = l := by
  cases l with
  | nil => rfl
  | cons a as => exact dropWhile_cons_neg (h a (List.mem_cons_self a as)) as

theorem dropWhile_concat_neg {p : Char → Bool} {c : Char} (h : p c = false) (xs : Str) :
    (xs ++ [c]).dropWhile p = xs.dropWhile p ++ [c] := by
  induction xs with
  | nil => simp [List.dropWhile_cons, h]
  | cons a as ih =>
    by_cases hp : p a = true
    · simp only [List.cons_append, List.dropWhile_cons, hp, if_true]
      exact ih
    · have hp' : p a = false := by
        cases hpa : p a
        · rfl
        · exact absurd hpa hp
      simp [List.dropWhile_cons, hp']

theorem dropWhile_head_neg {p : Char → Bool} :
    ∀ {l : Str} {c : Char} {r : Str}, l.dropWhile p = c :: r → p c = false := by
  intro l
  induction l with
  | nil => intro c r h; exact absurd h (by simp)
  | cons a as ih =>
    intro c r h
    by_cases hp : p a = true
    · rw [List.dropWhile_cons, if_pos hp] at h
      exact ih h
    · have hp' : p a = false := by
        cases hpa : p a
        · rfl
        · exact absurd hpa hp
      rw [dropWhile_cons_neg hp'] at h
      cases h
      exact hp'

theorem dropWhile_length_le (p : Char → Bool) (l : Str) :
    (l.dropWhile p).length ≤ l.length := by
  induction l with
  | nil => simp
  | cons a as ih =>
    rw [List.dropWhile_cons]
    by_cases hp : p a = true
    · simp only [hp, if_true]
      exact Nat.le_succ_of_le ih
    · simp [hp]

theorem dropWhile_eq_self_of_length {p : Char → Bool} {l : Str}
    (h : (l.dropWhile p).length = l.length) : l.dropWhile p = l := by
  induction l with
  | nil => rfl
  | cons a as _ih =>
    by_cases hp : p a = true
    · rw [List.dropWhile_cons, if_pos hp] at h
      have := dropWhile_length_le p as
      simp only [List.length_cons] at h
      omega
    · have hp' : p a = false := by
        cases hpa : p a
        · rfl
        · exact absurd hpa hp
      exact dropWhile_cons_neg hp' as

theorem dropWhile_idem (p : Char → Bool) (l : Str) :
    (l.dropWhile p).dropWhile p = l.dropWhile p := by
  cases hd : l.dropWhile p with
  | nil => rfl
  | cons c r => exact dropWhile_cons_neg (dropWhile_head_neg hd) r

theorem rdropWhile_cons_neg {p : Char → Bool} {c : Char} (h : p c = false) (l : Str) :
    rdropWhile p (c :: l) = c :: rdropWhile p l := by
  unfold rdropWhile
  rw [List.reverse_cons, dropWhile_concat_neg h, List.reverse_append]
  simp

theorem rdropWhile_eq_self_of_forall {p : Char → Bool} {l : Str}
    (h : ∀ c ∈ l, p c = false) : rdropWhile p l = l := by
  unfold rdropWhile
  rw [dropWhile_eq_self_of_forall (fun c hc => h c (List.mem_reverse.mp hc))]
  exact l.reverse_reverse

theorem rdropWhile_concat_neg {p : Char → Bool} {c : Char} (h : p c = false) (xs : Str) :
    rdropWhile p (xs ++ [c]) = xs ++ [c] := by
  unfold rdropWhile
  rw [List.reverse_append]
  simp only [List.reverse_cons, List.reverse_nil, List.nil_append, List.singleton_append]
  rw [dropWhile_cons_neg h]
  simp

theorem rdropWhile_length_le (p : Char → Bool) (l : Str) :
    (rdropWhile p l).length ≤ l.length := by
  unfold rdropWhile
  rw [List.length_reverse]
  calc (l.reverse.dropWhile p).length ≤ l.reverse.length := dropWhile_length_le p l.reverse
    _ = l.length := List.length_reverse l

theorem rdropWhile_idem (p : Char → Bool) (l : Str) :
    rdropWhile p (rdropWhile p l) = rdropWhile p l := by
  unfold rdropWhile
  rw [List.reverse_reverse, dropWhile_idem]

theorem pstrip_inv_drop {t : Str} (h : pstrip t = t) : t.dropWhile isWs = t := by
  have hle1 : (pstrip t).length ≤ (t.dropWhile isWs).length := rdropWhile_length_le _ _
  have hle2 : (t.dropWhile isWs).length ≤ t.length := dropWhile_length_le _ _
  have : (t.dropWhile isWs).length = t.length := by rw [h] at hle1; omega
  exact dropWhile_eq_self_of_length this

theorem pstrip_inv_rdrop {t : Str} (h : pstrip t = t) : rdropWhile isWs t = t := by
  have hd := pstrip_inv_drop h
  unfold pstrip at h
  rw [hd] at h
  exact h

theorem pstrip_idem (s : Str) : pstrip (pstrip s) = pstrip s := by
  unfold pstrip
  cases hu : s.dropWhile isWs with
  | nil => rfl
  | cons c r =>
    have hc : isWs c = false := dropWhile_head_neg hu
    rw [rdropWhile_cons_neg hc, dropWhile_cons_neg hc, rdropWhile_cons_neg hc, rdropWhile_idem]

theorem pstrip_cons_ws (c : Char) (h : isWs c = true) (l : Str) :
    pstrip (c :: l) = pstrip l := by
  unfold pstrip
  rw [List.dropWhile_cons, if_pos h]

theorem pstrip_of_inv {t : Str} (h : pstrip t = t) (c : Char) (hc : isWs c = true) :
    pstrip (c :: t) = t := by
  rw [pstrip_cons_ws c hc, h]

/-! ## Helper lemmas: `strStarts`, list indexing, `idxFrom`, `natDigits` -/

theorem strStarts_append_self (p r : Str) : strStarts p (p ++ r) = true := by
  induction p with
  | nil => rfl
  | cons a as ih => simp [strStarts, ih]

theorem strStarts_cons_ne {a b : Char} (h : a ≠ b) (as bs : Str) :
    strStarts (a :: as) (b :: bs) = false := by
  simp [strStarts, h]

theorem strStarts_cons_nil (a : Char) (as : Str) : strStarts (a :: as) [] = false := rfl

theorem getD_append_size {α : Type} (h : List α) (d dflt : α) :
    (h ++ [d]).getD h.length dflt = d := by
  rw [List.getD_eq_getElem?_getD, List.getElem?_append_right (Nat.le_refl _)]
  simp

theorem getD_append_lt {α : Type} {i : Nat} {h : List α} (hi : i < h.length)
    (t : List α) (dflt : α) : (h ++ t).getD i dflt = h.getD i dflt := by
  rw [List.getD_eq_getElem?_getD, List.getD_eq_getElem?_getD, List.getElem?_append]
  simp [hi]

theorem getD_set_ne {α : Type} {i j : Nat} (h : i ≠ j) (l : List α) (v dflt : α) :
    (l.set i v).getD j dflt = l.getD j dflt := by
  rw [List.getD_eq_getElem?_getD, List.getD_eq_getElem?_getD, List.getElem?_set_ne h]

theorem set_append_size {α : Type} (h : List α) (d v : α) :
    (h ++ [d]).set h.length v = h ++ [v] := by
  induction h with
  | nil => rfl
  | cons a as ih => simp [List.set, ih]

theorem idxFrom_concat (s n : Nat) : idxFrom s n ++ [s + n] = idxFrom s (n + 1) := by
  induction n generalizing s with
  | zero => simp [idxFrom]
  | succ m ih =>
    show (s :: idxFrom (s + 1) m) ++ [s + (m + 1)] = s :: idxFrom (s + 1) (m + 1)
    have : s + (m + 1) = (s + 1) + m := by omega
    rw [List.cons_append, this, ih]

theorem mem_idxFrom {i s n : Nat} (h : i ∈ idxFrom s n) : s ≤ i ∧ i < s + n := by
  induction n generalizing s with
  | zero => exact absurd h (by simp [idxFrom])
  | succ m ih =>
    rcases List.mem_cons.mp h with h0 | h1
    · omega
    · have := ih h1
      omega

theorem map_getD_idxFrom {α : Type} (dflt : α) :
    ∀ (L pre rest : List α),
      (idxFrom pre.length L.length).map (fun i => (pre ++ L ++ rest).getD i dflt) = L := by
  intro L
  induction L with
  | nil => intro pre rest; rfl
  | cons x xs ih =>
    intro pre rest
    have hx : (pre ++ (x :: xs) ++ rest).getD pre.length dflt = x := by
      rw [List.getD_eq_getElem?_getD, List.append_assoc,
        List.getElem?_append_right (Nat.le_refl _)]
      simp
    have hrec := ih (pre ++ [x]) rest
    have hlen : (pre ++ [x]).length = pre.length + 1 := by simp
    have hassoc : pre ++ [x] ++ xs ++ rest = pre ++ (x :: xs) ++ rest := by simp
    rw [hlen, hassoc] at hrec
    simp only [List.length_cons, idxFrom, List.map_cons]
    rw [hx, hrec]

theorem digitChar_isDigit {n : Nat} (h : n < 10) : (digitChar n).isDigit = true := by
  interval_cases n <;> decide

theorem natDigitsAux_spec :
    ∀ (fuel n : Nat) (acc : Str), n < fuel →
      ∃ ds : Str, natDigitsAux fuel n acc = ds ++ acc ∧ ds ≠ [] ∧
        ∀ c ∈ ds, c.isDigit = true := by
  intro fuel
  induction fuel with
  | zero => intro n acc h; omega
  | succ f ih =>
    intro n acc h
    by_cases hn : n < 10
    · refine ⟨[digitChar n], ?_, by simp, ?_⟩
      · simp [natDigitsAux, hn]
      · intro c hc
        rcases List.mem_singleton.mp hc with rfl
        exact digitChar_isDigit hn
    · have hn10 : 10 ≤ n := by omega
      have hdiv : n / 10 < f := by
        have h1 : n / 10 < n := Nat.div_lt_self (by omega) (by omega)
        omega
      obtain ⟨ds, hds, hne, hdig⟩ := ih (n / 10) (digitChar (n % 10) :: acc) hdiv
      refine ⟨ds ++ [digitChar (n % 10)], ?_, by simp, ?_⟩
      · rw [natDigitsAux]
        simp only [hn, if_false]
        rw [hds, List.append_assoc, List.singleton_append]
      · intro c hc
        rcases List.mem_append.mp hc with h1 | h2
        · exact hdig c h1
        · rcases List.mem_singleton.mp h2 with rfl
          exact digitChar_isDigit (Nat.mod_lt n (by omega))

theorem natDigits_ne_nil (n : Nat) : natDigits n ≠ [] := by
  obtain ⟨ds, hds, hne, _⟩ := natDigitsAux_spec (n + 1) n [] (Nat.lt_succ_self n)
  unfold natDigits
  rw [hds, List.append_nil]
  exact hne

theorem natDigits_digits {n : Nat} {c : Char} (h : c ∈ natDigits n) : c.isDigit = true := by
  obtain ⟨ds, hds, _, hdig⟩ := natDigitsAux_spec (n + 1) n [] (Nat.lt_succ_self n)
  unfold natDigits at h
  rw [hds, List.append_nil] at h
  exact hdig c h

theorem natDigits_no_nl {n : Nat} : '\n' ∉ natDigits n := by
  intro h
  have := natDigits_digits h
  exact absurd this (by decide)

/-! ## Helper lemmas: parser line classification -/

theorem rstripNl_eq {l : Str} (h : '\n' ∉ l) :
    rdropWhile (fun c => c = '\n') l = l := by
  refine rdropWhile_eq_self_of_forall ?_
  intro c hc
  have : c ≠ '\n' := fun he => h (he ▸ hc)
  simp [this]

theorem matchLogStamp_nondigit {c : Char} (h : c.isDigit = false) (l : Str) :
    matchLogStamp (c :: l) = none := by
  unfold matchLogStamp
  have : expectDigits 4 (c :: l) = none := by
    show (if c.isDigit then expectDigits 3 l else none) = none
    simp [h]
  rw [this]

theorem contentOf_cons {c : Char} {r : Str} (hnl : '\n' ∉ (c :: r))
    (hd : c.isDigit = false) : contentOf (c :: r) = c :: r := by
  unfold contentOf
  rw [rstripNl_eq hnl]
  simp only [matchLogStamp_nondigit hd]

theorem no_nl_cons {c : Char} {r : Str} (hc : c ≠ '\n') (h : '\n' ∉ r) :
    '\n' ∉ (c :: r) := by
  intro hm
  rcases List.mem_cons.mp hm with h1 | h2
  · exact hc h1.symm
  · exact h h2

theorem no_nl_append {a b : Str} (ha : '\n' ∉ a) (hb : '\n' ∉ b) :
    '\n' ∉ (a ++ b) := by
  intro hm
  rcases List.mem_append.mp hm with h1 | h2
  · exact ha h1
  · exact hb h2

/-! ## Helper lemmas: `pstep` on the serialized line shapes -/

theorem pstep_skip_bracket (s : PState) (r : Str) (h : '\n' ∉ r) :
    pstep s (' ' :: ' ' :: '[' :: r) = s := by
  have hnl : '\n' ∉ (' ' :: ' ' :: '[' :: r) :=
    no_nl_cons (by decide) (no_nl_cons (by decide) (no_nl_cons (by decide) h))
  have hco := contentOf_cons hnl (by decide)
  have hps : pstrip (' ' :: ' ' :: '[' :: r) = '[' :: rdropWhile isWs r := by
    rw [pstrip_cons_ws ' ' (by decide), pstrip_cons_ws ' ' (by decide)]
    unfold pstrip
    rw [dropWhile_cons_neg (by decide), rdropWhile_cons_neg (by decide)]
  have hEq : strStarts "=".data (' ' :: ' ' :: '[' :: r) = false :=
    strStarts_cons_ne (by decide) _ _
  have hDash : strStarts "-".data (' ' :: ' ' :: '[' :: r) = false :=
    strStarts_cons_ne (by decide) _ _
  have hProc : strStarts "Processing [".data (' ' :: ' ' :: '[' :: r) = false :=
    strStarts_cons_ne (by decide) _ _
  have hTitle : strStarts "Title:".data ('[' :: rdropWhile isWs r) = false :=
    strStarts_cons_ne (by decide) _ _
  have hDoi : strStarts "DOI:".data ('[' :: rdropWhile isWs r) = false :=
    strStarts_cons_ne (by decide) _ _
  have hAbs : strStarts "Abstract:".data ('[' :: rdropWhile isWs r) = false :=
    strStarts_cons_ne (by decide) _ _
  unfold pstep
  rw [hco]
  simp [hps, hEq, hDash, hProc, hTitle, hDoi, hAbs]

theorem dropWhile_append (p : Char → Bool) (a b : Str) :
    (a ++ b).dropWhile p =
      if a.dropWhile p = [] then b.dropWhile p else a.dropWhile p ++ b := by
  induction a with
  | nil => simp
  | cons x xs ih =>
    by_cases hp : p x = true
    · simp only [List.cons_append, List.dropWhile_cons, hp, if_true]
      exact ih
    · have hp' : p x = false := by
        cases hpx : p x
        · rfl
        · exact absurd hpx hp
      simp [List.dropWhile_cons, hp']

theorem rdropWhile_append (p : Char → Bool) (xs t : Str) :
    rdropWhile p (xs ++ t) =
      if rdropWhile p t = [] then rdropWhile p xs else xs ++ rdropWhile p t := by
  unfold rdropWhile
  rw [List.reverse_append, dropWhile_append]
  by_cases h : t.reverse.dropWhile p = []
  · have h2 : (t.reverse.dropWhile p).reverse = [] := by rw [h]; rfl
    rw [if_pos h, if_pos h2]
  · have h2 : (t.reverse.dropWhile p).reverse ≠ [] := by
      intro he
      exact h (by simpa using congrArg List.reverse he)
    rw [if_neg h, if_neg h2, List.reverse_append, List.reverse_reverse]

/-- `pstrip` of a field line `"  Tag: " ++ v` when `v` is strip-invariant:
the result keeps the tag and, when `v` is nonempty, the separating space
and `v`; the serializer's trailing space is stripped when `v` is empty. -/
theorem pstrip_field_line {g : Char} {gs : Str} (hg : isWs g = false)
    {v : Str} (hv : pstrip v = v) :
    pstrip (' ' :: ' ' :: g :: (gs ++ ':' :: ' ' :: v)) =
      if v = [] then g :: (gs ++ [':']) else g :: (gs ++ ':' :: ' ' :: v) := by
  rw [pstrip_cons_ws ' ' (by decide), pstrip_cons_ws ' ' (by decide)]
  unfold pstrip
  rw [dropWhile_cons_neg hg]
  by_cases hveq : v = []
  · subst hveq
    rw [if_pos rfl]
    have h2 : (g :: (gs ++ ':' :: ' ' :: ([] : Str))) = ((g :: (gs ++ [':'])) ++ [' ']) := by
      simp
    rw [h2, rdropWhile_append isWs (g :: (gs ++ [':'])) [' '], if_pos (by decide)]
    have h3 : (g :: (gs ++ [':'])) = ((g :: gs) ++ [':']) := by simp
    rw [h3, rdropWhile_concat_neg (by decide)]
  · rw [if_neg hveq]
    have h2 : (g :: (gs ++ ':' :: ' ' :: v)) = ((g :: (gs ++ [':', ' '])) ++ v) := by simp
    have hvr : rdropWhile isWs v = v := pstrip_inv_rdrop hv
    rw [h2, rdropWhile_append isWs _ v, hvr, if_neg hveq]

theorem strStarts_self (p : Str) : strStarts p p = true := by
  have := strStarts_append_self p []
  rwa [List.append_nil] at this

theorem bool_cond_neg {b : Bool} (h : b = false) : ¬(b = true) := by simp [h]

theorem pstep_title (s : PState) (t : Str) (hinv : pstrip t = t) (hnl : '\n' ∉ t) :
    pstep s ("  Title: ".data ++ t) =
      ⟨s.heap.set s.cur { s.heap.getD s.cur emptyRaw with title := some t },
        s.cur, s.upds⟩ := by
  have hline : "  Title: ".data ++ t = ' ' :: ' ' :: 'T' :: ("itle".data ++ ':' :: ' ' :: t) :=
    rfl
  have hnlline : '\n' ∉ (' ' :: ' ' :: 'T' :: ("itle".data ++ ':' :: ' ' :: t)) :=
    no_nl_cons (by decide) (no_nl_cons (by decide) (no_nl_cons (by decide)
      (no_nl_append (by decide) (no_nl_cons (by decide) (no_nl_cons (by decide) hnl)))))
  have hco := contentOf_cons hnlline (by decide)
  rw [hline]
  simp only [pstep]
  rw [hco]
  by_cases hveq : t = []
  · subst hveq
    have hps2 : pstrip (' ' :: ' ' :: 'T' :: ("itle".data ++ ':' :: ' ' :: ([] : Str)))
        = "Title:".data := by
      rw [pstrip_field_line (by decide) (v := []) rfl, if_pos rfl]
      rfl
    rw [hps2]
    rw [if_neg (show ¬((' ' :: ' ' :: 'T' :: ("itle".data ++ ':' :: ' ' :: ([] : Str)))
      = ([] : Str)) by simp)]
    rw [if_neg (bool_cond_neg (show strStarts "=".data
      (' ' :: ' ' :: 'T' :: ("itle".data ++ ':' :: ' ' :: ([] : Str))) = false from rfl))]
    rw [if_neg (bool_cond_neg (show strStarts "-".data
      (' ' :: ' ' :: 'T' :: ("itle".data ++ ':' :: ' ' :: ([] : Str))) = false from rfl))]
    rw [if_neg (bool_cond_neg (show strStarts "Processing [".data
      (' ' :: ' ' :: 'T' :: ("itle".data ++ ':' :: ' ' :: ([] : Str))) = false from rfl))]
    rw [if_pos (show strStarts "Title:".data ("Title:".data) = true from strStarts_self _)]
    rfl
  · have hps2 : pstrip (' ' :: ' ' :: 'T' :: ("itle".data ++ ':' :: ' ' :: t))
        = "Title:".data ++ ' ' :: t := by
      rw [pstrip_field_line (by decide) hinv, if_neg hveq]
      rfl
    rw [hps2]
    rw [if_neg (show ¬((' ' :: ' ' :: 'T' :: ("itle".data ++ ':' :: ' ' :: t))
      = ([] : Str)) by simp)]
    rw [if_neg (bool_cond_neg (show strStarts "=".data
      (' ' :: ' ' :: 'T' :: ("itle".data ++ ':' :: ' ' :: t)) = false from rfl))]
    rw [if_neg (bool_cond_neg (show strStarts "-".data
      (' ' :: ' ' :: 'T' :: ("itle".data ++ ':' :: ' ' :: t)) = false from rfl))]
    rw [if_neg (bool_cond_neg (show strStarts "Processing [".data
      (' ' :: ' ' :: 'T' :: ("itle".data ++ ':' :: ' ' :: t)) = false from rfl))]
    rw [if_pos (show strStarts "Title:".data ("Title:".data ++ ' ' :: t) = true from
      strStarts_append_self _ _)]
    have hdrop : ("Title:".data ++ ' ' :: t).drop 6 = ' ' :: t :=
      (by decide : ("Title:".data).length = 6) ▸ List.drop_left "Title:".data (' ' :: t)
    rw [hdrop, pstrip_of_inv hinv ' ' (by decide)]

theorem pstep_doi (s : PState) (t : Str) (hinv : pstrip t = t) (hnl : '\n' ∉ t) :
    pstep s ("  DOI: ".data ++ t) =
      ⟨s.heap.set s.cur { s.heap.getD s.cur emptyRaw with doi := some t },
        s.cur, s.upds⟩ := by
  have hline : "  DOI: ".data ++ t = ' ' :: ' ' :: 'D' :: ("OI".data ++ ':' :: ' ' :: t) := rfl
  have hnlline : '\n' ∉ (' ' :: ' ' :: 'D' :: ("OI".data ++ ':' :: ' ' :: t)) :=
    no_nl_cons (by decide) (no_nl_cons (by decide) (no_nl_cons (by decide)
      (no_nl_append (by decide) (no_nl_cons (by decide) (no_nl_cons (by decide) hnl)))))
  have hco := contentOf_cons hnlline (by decide)
  rw [hline]
  simp only [pstep]
  rw [hco]
  by_cases hveq : t = []
  · subst hveq
    have hps2 : pstrip (' ' :: ' ' :: 'D' :: ("OI".data ++ ':' :: ' ' :: ([] : Str)))
        = "DOI:".data := by
      rw [pstrip_field_line (by decide) (v := []) rfl, if_pos rfl]
      rfl
    rw [hps2]
    rw [if_neg (show ¬((' ' :: ' ' :: 'D' :: ("OI".data ++ ':' :: ' ' :: ([] : Str)))
      = ([] : Str)) by simp)]
    rw [if_neg (bool_cond_neg (show strStarts "=".data
      (' ' :: ' ' :: 'D' :: ("OI".data ++ ':' :: ' ' :: ([] : Str))) = false from rfl))]
    rw [if_neg (bool_cond_neg (show strStarts "-".data
      (' ' :: ' ' :: 'D' :: ("OI".data ++ ':' :: ' ' :: ([] : Str))) = false from rfl))]
    rw [if_neg (bool_cond_neg (show strStarts "Processing [".data
      (' ' :: ' ' :: 'D' :: ("OI".data ++ ':' :: ' ' :: ([] : Str))) = false from rfl))]
    rw [if_neg (bool_cond_neg (show strStarts "Title:".data ("DOI:".data) = false from rfl))]
    rw [if_pos (show strStarts "DOI:".data ("DOI:".data) = true from strStarts_self _)]
    rfl
  · have hps2 : pstrip (' ' :: ' ' :: 'D' :: ("OI".data ++ ':' :: ' ' :: t))
        = "DOI:".data ++ ' ' :: t := by
      rw [pstrip_field_line (by decide) hinv, if_neg hveq]
      rfl
    rw [hps2]
    rw [if_neg (show ¬((' ' :: ' ' :: 'D' :: ("OI".data ++ ':' :: ' ' :: t))
      = ([] : Str)) by simp)]
    rw [if_neg (bool_cond_neg (show strStarts "=".data
      (' ' :: ' ' :: 'D' :: ("OI".data ++ ':' :: ' ' :: t)) = false from rfl))]
    rw [if_neg (bool_cond_neg (show strStarts "-".data
      (' ' :: ' ' :: 'D' :: ("OI".data ++ ':' :: ' ' :: t)) = false from rfl))]
    rw [if_neg (bool_cond_neg (show strStarts "Processing [".data
      (' ' :: ' ' :: 'D' :: ("OI".data ++ ':' :: ' ' :: t)) = false from rfl))]
    rw [if_neg (bool_cond_neg (show strStarts "Title:".data ("DOI:".data ++ ' ' :: t)
      = false from rfl))]
    rw [if_pos (show strStarts "DOI:".data ("DOI:".data ++ ' ' :: t) = true from
      strStarts_append_self _ _)]
    have hdrop : ("DOI:".data ++ ' ' :: t).drop 4 = ' ' :: t :=
      (by decide : ("DOI:".data).length = 4) ▸ List.drop_left "DOI:".data (' ' :: t)
    rw [hdrop, pstrip_of_inv hinv ' ' (by decide)]

theorem pstep_abstract (s : PState) (t : Str) (hinv : pstrip t = t) (hnl : '\n' ∉ t) :
    pstep s ("  Abstract: ".data ++ t) =
      ⟨s.heap.set s.cur { s.heap.getD s.cur emptyRaw with abstract := some t },
        s.cur, s.upds⟩ := by
  have hline : "  Abstract: ".data ++ t
      = ' ' :: ' ' :: 'A' :: ("bstract".data ++ ':' :: ' ' :: t) := rfl
  have hnlline : '\n' ∉ (' ' :: ' ' :: 'A' :: ("bstract".data ++ ':' :: ' ' :: t)) :=
    no_nl_cons (by decide) (no_nl_cons (by decide) (no_nl_cons (by decide)
      (no_nl_append (by decide) (no_nl_cons (by decide) (no_nl_cons (by decide) hnl)))))
  have hco := contentOf_cons hnlline (by decide)
  rw [hline]
  simp only [pstep]
  rw [hco]
  by_cases hveq : t = []
  · subst hveq
    have hps2 : pstrip (' ' :: ' ' :: 'A' :: ("bstract".data ++ ':' :: ' ' :: ([] : Str)))
        = "Abstract:".data := by
      rw [pstrip_field_line (by decide) (v := []) rfl, if_pos rfl]
      rfl
    rw [hps2]
    rw [if_neg (show ¬((' ' :: ' ' :: 'A' :: ("bstract".data ++ ':' :: ' ' :: ([] : Str)))
      = ([] : Str)) by simp)]
    rw [if_neg (bool_cond_neg (show strStarts "=".data
      (' ' :: ' ' :: 'A' :: ("bstract".data ++ ':' :: ' ' :: ([] : Str))) = false from rfl))]
    rw [if_neg (bool_cond_neg (show strStarts "-".data
      (' ' :: ' ' :: 'A' :: ("bstract".data ++ ':' :: ' ' :: ([] : Str))) = false from rfl))]
    rw [if_neg (bool_cond_neg (show strStarts "Processing [".data
      (' ' :: ' ' :: 'A' :: ("bstract".data ++ ':' :: ' ' :: ([] : Str))) = false from rfl))]
    rw [if_neg (bool_cond_neg (show strStarts "Title:".data ("Abstract:".data)
      = false from rfl))]
    rw [if_neg (bool_cond_neg (show strStarts "DOI:".data ("Abstract:".data)
      = false from rfl))]
    rw [if_pos (show strStarts "Abstract:".data ("Abstract:".data) = true from
      strStarts_self _)]
    rfl
  · have hps2 : pstrip (' ' :: ' ' :: 'A' :: ("bstract".data ++ ':' :: ' ' :: t))
        = "Abstract:".data ++ ' ' :: t := by
      rw [pstrip_field_line (by decide) hinv, if_neg hveq]
      rfl
    rw [hps2]
    rw [if_neg (show ¬((' ' :: ' ' :: 'A' :: ("bstract".data ++ ':' :: ' ' :: t))
      = ([] : Str)) by simp)]
    rw [if_neg (bool_cond_neg (show strStarts "=".data
      (' ' :: ' ' :: 'A' :: ("bstract".data ++ ':' :: ' ' :: t)) = false from rfl))]
    rw [if_neg (bool_cond_neg (show strStarts "-".data
      (' ' :: ' ' :: 'A' :: ("bstract".data ++ ':' :: ' ' :: t)) = false from rfl))]
    rw [if_neg (bool_cond_neg (show strStarts "Processing [".data
      (' ' :: ' ' :: 'A' :: ("bstract".data ++ ':' :: ' ' :: t)) = false from rfl))]
    rw [if_neg (bool_cond_neg (show strStarts "Title:".data ("Abstract:".data ++ ' ' :: t)
      = false from rfl))]
    rw [if_neg (bool_cond_neg (show strStarts "DOI:".data ("Abstract:".data ++ ' ' :: t)
      = false from rfl))]
    rw [if_pos (show strStarts "Abstract:".data ("Abstract:".data ++ ' ' :: t) = true from
      strStarts_append_self _ _)]
    have hdrop : ("Abstract:".data ++ ' ' :: t).drop 9 = ' ' :: t :=
      (by decide : ("Abstract:".data).length = 9) ▸ List.drop_left "Abstract:".data (' ' :: t)
    rw [hdrop, pstrip_of_inv hinv ' ' (by decide)]

theorem no_nl_of_digits {ds : Str} (h : ∀ x ∈ ds, x.isDigit = true) : '\n' ∉ ds := by
  intro hm
  have := h _ hm
  exact absurd this (by decide)

theorem digits1_run {ds : Str} (hne : ds ≠ []) (hdig : ∀ x ∈ ds, x.isDigit = true)
    {y : Char} (hy : y.isDigit = false) (r : Str) :
    digits1 (ds ++ y :: r) = some (y :: r) := by
  cases ds with
  | nil => exact absurd rfl hne
  | cons d dtl =>
    have hd := hdig d (List.mem_cons_self d dtl)
    show digits1 (d :: (dtl ++ y :: r)) = some (y :: r)
    unfold digits1
    show (if d.isDigit = true then some ((dtl ++ y :: r).dropWhile (fun x => x.isDigit))
      else none) = some (y :: r)
    rw [if_pos hd, dropWhile_all (fun x hx => hdig x (List.mem_cons_of_mem d hx)),
      dropWhile_cons_neg hy]

theorem dollarSome_of {c : Str} (hne : c ≠ []) (hnl : '\n' ∉ c) :
    dollarSome c = some c := by
  unfold dollarSome dollarAny
  rw [if_neg hnl]
  show (if c = [] then none else some c) = some c
  rw [if_neg hne]

theorem matchProcAt_block {ds ds' c : Str}
    (hne : ds ≠ []) (hdig : ∀ x ∈ ds, x.isDigit = true)
    (hne' : ds' ≠ []) (hdig' : ∀ x ∈ ds', x.isDigit = true)
    (hc : c ≠ []) (hnc : '\n' ∉ c) :
    matchProcAt ("Processing [".data ++ (ds ++ '/' :: (ds' ++ ']' :: ' ' :: c)))
      = some c := by
  have h1 : dropLit "Processing [".data
      ("Processing [".data ++ (ds ++ '/' :: (ds' ++ ']' :: ' ' :: c)))
      = some (ds ++ '/' :: (ds' ++ ']' :: ' ' :: c)) := by
    unfold dropLit
    rw [if_pos (strStarts_append_self _ _), List.drop_left]
  have h2 : digits1 (ds ++ '/' :: (ds' ++ ']' :: ' ' :: c))
      = some ('/' :: (ds' ++ ']' :: ' ' :: c)) := digits1_run hne hdig (by decide) _
  have h3 : digits1 (ds' ++ ']' :: ' ' :: c) = some (']' :: ' ' :: c) :=
    digits1_run hne' hdig' (by decide) _
  have h4 : dollarSome c = some c := dollarSome_of hc hnc
  unfold matchProcAt
  simp only [h1, h2, h3, h4]

theorem pstep_proc (s : PState) (i N : Nat) (c : Str) (hc : c ≠ []) (hnc : '\n' ∉ c) :
    pstep s ("Processing [".data ++ (natDigits i ++ '/' :: (natDigits N ++ ']' :: ' ' :: c)))
      = ⟨s.heap ++ [⟨some c, none, none, none⟩], s.heap.length,
          if isComplete (s.heap.getD s.cur emptyRaw) then s.upds ++ [s.cur] else s.upds⟩ := by
  have hnlX : '\n' ∉ (natDigits i ++ '/' :: (natDigits N ++ ']' :: ' ' :: c)) :=
    no_nl_append (no_nl_of_digits (fun x hx => natDigits_digits hx))
      (no_nl_cons (by decide)
        (no_nl_append (no_nl_of_digits (fun x hx => natDigits_digits hx))
          (no_nl_cons (by decide) (no_nl_cons (by decide) hnc))))
  have hnl : '\n' ∉ ("Processing [".data ++ (natDigits i ++ '/' :: (natDigits N ++ ']' :: ' ' :: c))) :=
    no_nl_append (by decide) hnlX
  have hnl' : '\n' ∉ ('P' :: ("rocessing [".data ++ (natDigits i ++ '/' :: (natDigits N ++ ']' :: ' ' :: c)))) := hnl
  have hco : contentOf ("Processing [".data ++ (natDigits i ++ '/' :: (natDigits N ++ ']' :: ' ' :: c)))
      = "Processing [".data ++ (natDigits i ++ '/' :: (natDigits N ++ ']' :: ' ' :: c)) :=
    contentOf_cons hnl' (by decide)
  have hm : matchProcAt ('P' :: ("rocessing [".data ++ (natDigits i ++ '/' :: (natDigits N ++ ']' :: ' ' :: c)))) = some c :=
    matchProcAt_block (natDigits_ne_nil i) (fun x hx => natDigits_digits hx)
      (natDigits_ne_nil N) (fun x hx => natDigits_digits hx) hc hnc
  have hsp : searchProc ("Processing [".data ++ (natDigits i ++ '/' :: (natDigits N ++ ']' :: ' ' :: c))) = some c := by
    rw [show ("Processing [".data ++ (natDigits i ++ '/' :: (natDigits N ++ ']' :: ' ' :: c)))
      = 'P' :: ("rocessing [".data ++ (natDigits i ++ '/' :: (natDigits N ++ ']' :: ' ' :: c)))
      from rfl]
    unfold searchProc
    simp only [hm]
  simp only [pstep]
  rw [hco]
  rw [if_neg (show ¬(("Processing [".data ++ (natDigits i ++ '/' :: (natDigits N ++ ']' :: ' ' :: c))) = ([] : Str)) by
    rw [show ("Processing [".data ++ (natDigits i ++ '/' :: (natDigits N ++ ']' :: ' ' :: c)))
      = 'P' :: ("rocessing [".data ++ (natDigits i ++ '/' :: (natDigits N ++ ']' :: ' ' :: c)))
      from rfl]
    simp)]
  rw [if_neg (bool_cond_neg (show strStarts "=".data
    ("Processing [".data ++ (natDigits i ++ '/' :: (natDigits N ++ ']' :: ' ' :: c))) = false
    from rfl))]
  rw [if_neg (bool_cond_neg (show strStarts "-".data
    ("Processing [".data ++ (natDigits i ++ '/' :: (natDigits N ++ ']' :: ' ' :: c))) = false
    from rfl))]
  rw [if_pos (show strStarts "Processing [".data
    ("Processing [".data ++ (natDigits i ++ '/' :: (natDigits N ++ ']' :: ' ' :: c))) = true
    from strStarts_append_self _ _)]
  simp only [hsp]

theorem foldl_entryBlock (H : List RawItem) (d : RawItem) (u : List Nat) (i N : Nat)
    (e : LedgerEntry) (hg : goodEntry e) :
    List.foldl pstep ⟨H ++ [d], H.length, u⟩ (entryBlock i N e)
      = ⟨(H ++ [d]) ++ [dictOf e], (H ++ [d]).length,
          if isComplete d then u ++ [H.length] else u⟩ := by
  obtain ⟨hcne, hcnl, htin, htnl, hdin, hdnl, hain, hanl⟩ := hg
  have hr4 : '\n' ∉ ("DRY RUN] Would update abstract for ".data
      ++ (e.citation ++ ' ' :: '(' :: (natDigits e.abstract.length ++ " chars)".data))) :=
    no_nl_append (by decide)
      (no_nl_append hcnl
        (no_nl_cons (by decide) (no_nl_cons (by decide)
          (no_nl_append natDigits_no_nl (by decide)))))
  simp only [entryBlock, List.foldl_cons, List.foldl_nil]
  rw [pstep_proc _ i N e.citation hcne hcnl]
  rw [getD_append_size]
  rw [pstep_title _ e.title htin htnl]
  rw [pstep_doi _ e.doi hdin hdnl]
  rw [pstep_skip_bracket _ _ hr4]
  rw [pstep_abstract _ e.abstract hain hanl]
  dsimp only
  rw [getD_append_size, set_append_size, getD_append_size, set_append_size,
    getD_append_size, set_append_size]
  rfl

theorem isComplete_dictOf (e : LedgerEntry) : isComplete (dictOf e) = true := rfl

theorem foldl_serializeFrom (es : List LedgerEntry) :
    ∀ (i N : Nat) (H : List RawItem) (d : RawItem) (u : List Nat),
      goodList es → isComplete d = true →
      List.foldl pstep ⟨H ++ [d], H.length, u⟩ (serializeFrom i N es)
        = ⟨(H ++ [d]) ++ dicts es, H.length + es.length,
            u ++ idxFrom H.length es.length⟩ := by
  induction es with
  | nil =>
    intro i N H d u _ _
    simp [serializeFrom, dicts, idxFrom]
  | cons e es ih =>
    intro i N H d u hg hd
    rw [serializeFrom, List.foldl_append,
      foldl_entryBlock H d u i N e (hg e (List.mem_cons_self e es)), if_pos hd,
      ih (i + 1) N (H ++ [d]) (dictOf e) (u ++ [H.length])
        (fun x hx => hg x (List.mem_cons_of_mem e hx)) (isComplete_dictOf e)]
    simp only [PState.mk.injEq]
    refine ⟨by simp [dicts], ?_, ?_⟩
    · simp only [List.length_append, List.length_cons, List.length_nil]
      omega
    · have hl : (H ++ [d]).length = H.length + 1 := by simp
      rw [hl]
      show (u ++ [H.length]) ++ idxFrom (H.length + 1) es.length
        = u ++ idxFrom H.length (es.length + 1)
      rw [show idxFrom H.length (es.length + 1)
        = H.length :: idxFrom (H.length + 1) es.length from rfl]
      simp

theorem getD_concat_len {α : Type} (h : List α) (d dflt : α) (k : Nat)
    (hk : k = h.length) : (h ++ [d]).getD k dflt = d := by
  subst hk
  exact getD_append_size h d dflt

theorem getD_heap_getLastD :
    ∀ (L : List RawItem) (H : List RawItem) (d : RawItem),
      ((H ++ [d]) ++ L).getD (H.length + L.length) emptyRaw = L.getLastD d := by
  intro L
  induction L with
  | nil =>
    intro H d
    simp only [List.length_nil, Nat.add_zero, List.append_nil]
    exact getD_append_size H d emptyRaw
  | cons x L' ih =>
    intro H d
    have hre : (H ++ [d]) ++ x :: L' = ((H ++ [d]) ++ [x]) ++ L' := by simp
    have hidx : H.length + (x :: L').length = (H ++ [d]).length + L'.length := by
      simp only [List.length_cons, List.length_append, List.length_nil]
      omega
    rw [hre, hidx, ih (H ++ [d]) x, List.getLastD_cons]

theorem dicts_getLastD_complete :
    ∀ (es : List LedgerEntry) (x : LedgerEntry),
      isComplete ((dicts es).getLastD (dictOf x)) = true := by
  intro es
  induction es with
  | nil => intro x; exact isComplete_dictOf x
  | cons e es' ih =>
    intro x
    show isComplete ((dictOf e :: dicts es').getLastD (dictOf x)) = true
    rw [List.getLastD_cons]
    exact ih e

theorem dicts_length (es : List LedgerEntry) : (dicts es).length = es.length :=
  List.length_map es dictOf

theorem getD_heap_getLastD_k (L H : List RawItem) (d : RawItem) (k : Nat)
    (hk : k = H.length + L.length) :
    ((H ++ [d]) ++ L).getD k emptyRaw = L.getLastD d := by
  subst hk
  exact getD_heap_getLastD L H d

theorem parse_serializeEntries (es : List LedgerEntry) (h : goodList es) :
    parseLines (serializeEntries es) = dicts es := by
  cases es with
  | nil => rfl
  | cons e es' =>
    have hrun : runParse (serializeEntries (e :: es'))
        = ⟨([emptyRaw] ++ [dictOf e]) ++ dicts es', 1 + es'.length, idxFrom 1 es'.length⟩ := by
      show List.foldl pstep initPS (serializeFrom 1 (e :: es').length (e :: es')) = _
      rw [show (initPS : PState)
        = ⟨([] : List RawItem) ++ [emptyRaw], List.length ([] : List RawItem), []⟩ from rfl]
      rw [serializeFrom, List.foldl_append,
        foldl_entryBlock [] emptyRaw [] 1 (e :: es').length e (h e (List.mem_cons_self _ _))]
      rw [if_neg (show ¬(isComplete emptyRaw = true) by decide)]
      rw [foldl_serializeFrom es' 2 (e :: es').length (([] : List RawItem) ++ [emptyRaw])
        (dictOf e) [] (fun x hx => h x (List.mem_cons_of_mem _ hx)) (isComplete_dictOf e)]
      simp
    have hlast : (((([emptyRaw] ++ [dictOf e]) ++ dicts es').getD (1 + es'.length) emptyRaw))
        = (dicts es').getLastD (dictOf e) := by
      apply getD_heap_getLastD_k
      simp [dicts]
    have hflush : isComplete ((([emptyRaw] ++ [dictOf e]) ++ dicts es').getD
        (1 + es'.length) emptyRaw) = true := by
      rw [hlast]
      exact dicts_getLastD_complete es' e
    have hmap : (idxFrom 1 (es'.length + 1)).map
        (fun i => ((([emptyRaw] ++ [dictOf e]) ++ dicts es').getD i emptyRaw))
        = dictOf e :: dicts es' := by
      have h0 := map_getD_idxFrom emptyRaw (dictOf e :: dicts es') [emptyRaw] []
      simpa [List.append_assoc, dicts_length] using h0
    show (finalRefs (runParse (serializeEntries (e :: es')))).map
        (fun i => (runParse (serializeEntries (e :: es'))).heap.getD i emptyRaw)
      = dicts (e :: es')
    rw [hrun]
    unfold finalRefs
    dsimp only
    rw [if_pos hflush, idxFrom_concat 1 es'.length, hmap]
    rfl

theorem runParse_serializeEntries_cons (e : LedgerEntry) (es' : List LedgerEntry)
    (h : goodList (e :: es')) :
    runParse (serializeEntries (e :: es'))
      = ⟨([emptyRaw] ++ [dictOf e]) ++ dicts es', 1 + es'.length, idxFrom 1 es'.length⟩ := by
  show List.foldl pstep initPS (serializeFrom 1 (e :: es').length (e :: es')) = _
  rw [show (initPS : PState)
    = ⟨([] : List RawItem) ++ [emptyRaw], List.length ([] : List RawItem), []⟩ from rfl]
  rw [serializeFrom, List.foldl_append,
    foldl_entryBlock [] emptyRaw [] 1 (e :: es').length e (h e (List.mem_cons_self _ _))]
  rw [if_neg (show ¬(isComplete emptyRaw = true) by decide)]
  rw [foldl_serializeFrom es' 2 (e :: es').length (([] : List RawItem) ++ [emptyRaw])
    (dictOf e) [] (fun x hx => h x (List.mem_cons_of_mem _ hx)) (isComplete_dictOf e)]
  simp

theorem parse_serialize_trailing (es : List LedgerEntry) (c t : Str) (h : goodList es)
    (hc : c ≠ []) (hnc : '\n' ∉ c) (hti : pstrip t = t) (htn : '\n' ∉ t) :
    parseLines (serializeEntries es
        ++ ["Processing [".data ++ (natDigits (es.length + 1) ++ '/' ::
              (natDigits (es.length + 1) ++ ']' :: ' ' :: c)),
            "  Title: ".data ++ t])
      = dicts es := by
  cases es with
  | nil =>
    have hrun : runParse (serializeEntries []
        ++ ["Processing [".data ++ (natDigits (List.length ([] : List LedgerEntry) + 1) ++ '/' ::
              (natDigits (List.length ([] : List LedgerEntry) + 1) ++ ']' :: ' ' :: c)),
            "  Title: ".data ++ t])
        = ⟨[emptyRaw] ++ [(⟨some c, some t, none, none⟩ : RawItem)], 1, []⟩ := by
      show pstep (pstep initPS _) _ = _
      rw [pstep_proc initPS _ _ c hc hnc, pstep_title _ t hti htn]
      rfl
    unfold parseLines parseRefs
    rw [hrun]
    rfl
  | cons e es' =>
    have hflush : isComplete (((([emptyRaw] ++ [dictOf e]) ++ dicts es').getD
        (1 + es'.length) emptyRaw)) = true := by
      rw [getD_heap_getLastD_k (dicts es') ([emptyRaw]) (dictOf e) _ (by simp [dicts_length])]
      exact dicts_getLastD_complete es' e
    have hrun : runParse (serializeEntries (e :: es')
        ++ ["Processing [".data ++ (natDigits (List.length (e :: es') + 1) ++ '/' ::
              (natDigits (List.length (e :: es') + 1) ++ ']' :: ' ' :: c)),
            "  Title: ".data ++ t])
        = ⟨(([emptyRaw] ++ [dictOf e]) ++ dicts es')
              ++ [(⟨some c, some t, none, none⟩ : RawItem)],
            (([emptyRaw] ++ [dictOf e]) ++ dicts es').length,
            idxFrom 1 (es'.length + 1)⟩ := by
      show List.foldl pstep initPS _ = _
      rw [List.foldl_append]
      rw [show List.foldl pstep initPS (serializeEntries (e :: es'))
        = runParse (serializeEntries (e :: es')) from rfl]
      rw [runParse_serializeEntries_cons e es' h]
      rw [show ∀ (S : PState) (l1 l2 : Str),
        List.foldl pstep S [l1, l2] = pstep (pstep S l1) l2 from fun _ _ _ => rfl]
      rw [pstep_proc _ _ _ c hc hnc]
      dsimp only
      rw [if_pos hflush]
      rw [pstep_title _ t hti htn]
      dsimp only
      rw [getD_append_size, set_append_size, idxFrom_concat 1 es'.length]
    unfold parseLines parseRefs
    rw [hrun]
    unfold finalRefs
    dsimp only
    rw [getD_append_size]
    rw [if_neg (bool_cond_neg
      (show isComplete (⟨some c, some t, none, none⟩ : RawItem) = false from rfl))]
    have hmap := map_getD_idxFrom emptyRaw (dictOf e :: dicts es') [emptyRaw]
      [(⟨some c, some t, none, none⟩ : RawItem)]
    have hlen : (dictOf e :: dicts es').length = es'.length + 1 := by
      simp [dicts_length]
    rw [hlen] at hmap
    have hshape : ([emptyRaw] ++ (dictOf e :: dicts es')
          ++ [(⟨some c, some t, none, none⟩ : RawItem)])
        = (([emptyRaw] ++ [dictOf e]) ++ dicts es')
            ++ [(⟨some c, some t, none, none⟩ : RawItem)] := by
      simp
    rw [hshape] at hmap
    rw [show (List.length ([emptyRaw] : List RawItem)) = 1 from rfl] at hmap
    rw [hmap]
    rfl

theorem countMarkers_append (a b : List Str) :
    countMarkers (a ++ b) = countMarkers a + countMarkers b := by
  simp [countMarkers, List.filter_append]

theorem countMarkers_block (i N : Nat) (e : LedgerEntry) :
    countMarkers (entryBlock i N e) = 1 := by
  unfold countMarkers entryBlock
  simp only [List.filter_cons, List.filter_nil,
    strStarts_append_self,
    show strStarts "Processing [".data ("  Title: ".data ++ e.title) = false from rfl,
    show strStarts "Processing [".data ("  DOI: ".data ++ e.doi) = false from rfl,
    show strStarts "Processing [".data
      (' ' :: ' ' :: '[' :: ("DRY RUN] Would update abstract for ".data
        ++ (e.citation ++ ' ' :: '(' :: (natDigits e.abstract.length ++ " chars)".data))))
      = false from rfl,
    show strStarts "Processing [".data ("  Abstract: ".data ++ e.abstract) = false from rfl]
  rfl

theorem countMarkers_serializeFrom :
    ∀ (es : List LedgerEntry) (i N : Nat), countMarkers (serializeFrom i N es) = es.length := by
  intro es
  induction es with
  | nil => intro i N; rfl
  | cons e es' ih =>
    intro i N
    rw [serializeFrom, countMarkers_append, countMarkers_block, ih (i + 1) N]
    simp only [List.length_cons]
    omega

theorem countMarkers_trailing (es : List LedgerEntry) (c t : Str) :
    countMarkers (serializeEntries es
        ++ ["Processing [".data ++ (natDigits (es.length + 1) ++ '/' ::
              (natDigits (es.length + 1) ++ ']' :: ' ' :: c)),
            "  Title: ".data ++ t])
      = es.length + 1 := by
  rw [countMarkers_append]
  unfold serializeEntries
  rw [countMarkers_serializeFrom]
  unfold countMarkers
  simp only [List.filter_cons, List.filter_nil, strStarts_append_self,
    show strStarts "Processing [".data ("  Title: ".data ++ t) = false from rfl]
  rfl

/-! ## Helper lemmas: segmenter -/

theorem segLoop_bounds :
    ∀ (ps : List (List Str)) (text : Str) (a : Str), segLoop text ps = some a →
      50 < wordCount a ∧ wordCount a < 1000 := by
  intro ps
  induction ps with
  | nil => intro text a hsome; exact absurd hsome (by simp [segLoop])
  | cons p ps' ih =>
    intro text a hsome
    unfold segLoop at hsome
    rcases hsearch : searchStart p none text with _ | rem
    · rw [hsearch] at hsome
      exact ih text a hsome
    · rw [hsearch] at hsome
      dsimp only at hsome
      by_cases hv : 50 < wordCount (clean_abstract (pstrip
          (rem.take (endBound rem)))) ∧ wordCount (clean_abstract (pstrip
          (rem.take (endBound rem)))) < 1000
      · rw [if_pos hv] at hsome
        cases hsome
        exact hv
      · rw [if_neg hv] at hsome
        exact ih text a hsome

theorem segLoop_clean :
    ∀ (ps : List (List Str)) (text : Str) (a : Str), segLoop text ps = some a →
      ∃ x, a = clean_abstract x := by
  intro ps
  induction ps with
  | nil => intro text a hsome; exact absurd hsome (by simp [segLoop])
  | cons p ps' ih =>
    intro text a hsome
    unfold segLoop at hsome
    rcases hsearch : searchStart p none text with _ | rem
    · rw [hsearch] at hsome
      exact ih text a hsome
    · rw [hsearch] at hsome
      dsimp only at hsome
      by_cases hv : 50 < wordCount (clean_abstract (pstrip
          (rem.take (endBound rem)))) ∧ wordCount (clean_abstract (pstrip
          (rem.take (endBound rem)))) < 1000
      · rw [if_pos hv] at hsome
        cases hsome
        exact ⟨_, rfl⟩
      · rw [if_neg hv] at hsome
        exact ih text a hsome

theorem cwAux_chars :
    ∀ (t : Str) (b : Bool) (ch : Char), ch ∈ cwAux b t → ch = ' ' ∨ isWs ch = false := by
  intro t
  induction t with
  | nil => intro b ch h; exact absurd h (by simp [cwAux])
  | cons x xs ih =>
    intro b ch h
    unfold cwAux at h
    by_cases hx : isWs x = true
    · rw [if_pos hx] at h
      cases b with
      | true =>
        simp only [if_true] at h
        exact ih true ch h
      | false =>
        simp only [Bool.false_eq_true, if_false] at h
        rcases List.mem_cons.mp h with h1 | h2
        · exact Or.inl h1
        · exact ih true ch h2
    · have hx' : isWs x = false := by
        cases hxx : isWs x
        · rfl
        · exact absurd hxx hx
      rw [if_neg hx] at h
      rcases List.mem_cons.mp h with h1 | h2
      · subst h1; exact Or.inr hx'
      · exact ih false ch h2

theorem mem_rdropWhile {p : Char → Bool} {l : Str} {ch : Char}
    (h : ch ∈ rdropWhile p l) : ch ∈ l := by
  unfold rdropWhile at h
  exact List.mem_reverse.mp (mem_of_dropWhile (List.mem_reverse.mp h))

theorem mem_pstrip {s : Str} {ch : Char} (h : ch ∈ pstrip s) : ch ∈ s := by
  unfold pstrip at h
  exact mem_of_dropWhile (mem_rdropWhile h)

theorem mem_stripTrailNum {s : Str} {ch : Char} (h : ch ∈ stripTrailNum s) : ch ∈ s := by
  unfold stripTrailNum at h
  rcases hr : s.reverse.dropWhile isWs with _ | ⟨x, r'⟩
  · rw [hr] at h
    exact h
  · rw [hr] at h
    have h0 : ch ∈ (if x.isDigit = true
        then ((x :: r').dropWhile (fun c => c.isDigit)).reverse else s) := h
    by_cases hx : x.isDigit = true
    · rw [if_pos hx] at h0
      have h1 : ch ∈ (x :: r').dropWhile (fun c => c.isDigit) := List.mem_reverse.mp h0
      have h2 : ch ∈ x :: r' := mem_of_dropWhile h1
      rw [← hr] at h2
      exact List.mem_reverse.mp (mem_of_dropWhile h2)
    · rw [if_neg hx] at h0
      exact h0

theorem mem_stripLeadArtifact {s : Str} {ch : Char} (h : ch ∈ stripLeadArtifact s) : ch ∈ s := by
  unfold stripLeadArtifact at h
  rcases hr : s.dropWhile isWs with _ | ⟨x, r'⟩
  · rw [hr] at h
    exact h
  · rw [hr] at h
    have h0 : ch ∈ (if (x.isDigit || x = '-') = true
        then (((x :: r').dropWhile (fun y => y.isDigit || y = '-')).dropWhile isWs)
        else s) := h
    by_cases hx : (x.isDigit || x = '-') = true
    · rw [if_pos hx] at h0
      have h1 : ch ∈ (x :: r').dropWhile (fun y => y.isDigit || y = '-') :=
        mem_of_dropWhile h0
      have h2 : ch ∈ x :: r' := mem_of_dropWhile h1
      rw [← hr] at h2
      exact mem_of_dropWhile h2
    · rw [if_neg hx] at h0
      exact h0

theorem clean_abstract_chars {t : Str} {ch : Char} (h : ch ∈ clean_abstract t)
    (hws : isWs ch = true) : ch = ' ' := by
  unfold clean_abstract at h
  have h1 : ch ∈ collapseWs t :=
    mem_stripTrailNum (mem_stripLeadArtifact (mem_pstrip h))
  unfold collapseWs at h1
  rcases cwAux_chars t false ch h1 with h2 | h2
  · exact h2
  · rw [hws] at h2
    cases h2

/-! ## Helper lemmas: parser reference invariant (well-formed markers) -/

theorem nodup_snoc {u : List Nat} {x : Nat} (h : u.Nodup) (hx : x ∉ u) :
    (u ++ [x]).Nodup := by
  rw [List.nodup_append]
  refine ⟨h, List.nodup_singleton x, ?_⟩
  intro a ha hb
  rcases List.mem_singleton.mp hb with rfl
  exact hx ha

theorem pstep_inv (s : PState) (l : Str)
    (hwf : strStarts "Processing [".data (contentOf l) = true →
      (searchProc (contentOf l)).isSome = true)
    (hnd : s.upds.Nodup) (hcu : s.cur ∉ s.upds) (hcl : s.cur < s.heap.length)
    (hub : ∀ j ∈ s.upds, j < s.heap.length) :
    ((pstep s l).upds.Nodup ∧ (pstep s l).cur ∉ (pstep s l).upds ∧
      (pstep s l).cur < (pstep s l).heap.length ∧
      (∀ j ∈ (pstep s l).upds, j < (pstep s l).heap.length)) ∧
    (∃ add, (pstep s l).upds = s.upds ++ add) ∧
    (∀ j ∈ s.upds, (pstep s l).heap.getD j emptyRaw = s.heap.getD j emptyRaw) := by
  unfold pstep
  by_cases h1 : contentOf l = []
  · rw [if_pos h1]
    exact ⟨⟨hnd, hcu, hcl, hub⟩, ⟨[], by simp⟩, fun j _ => rfl⟩
  rw [if_neg h1]
  by_cases h2 : strStarts "=".data (contentOf l) = true
  · rw [if_pos h2]
    exact ⟨⟨hnd, hcu, hcl, hub⟩, ⟨[], by simp⟩, fun j _ => rfl⟩
  rw [if_neg h2]
  by_cases h3 : strStarts "-".data (contentOf l) = true
  · rw [if_pos h3]
    exact ⟨⟨hnd, hcu, hcl, hub⟩, ⟨[], by simp⟩, fun j _ => rfl⟩
  rw [if_neg h3]
  by_cases h4 : strStarts "Processing [".data (contentOf l) = true
  · rw [if_pos h4]
    have hs := hwf h4
    rcases hsp : searchProc (contentOf l) with _ | cit
    · rw [hsp] at hs
      exact absurd hs (by simp)
    · dsimp only
      by_cases hfl : isComplete (s.heap.getD s.cur emptyRaw) = true
      · rw [if_pos hfl]
        have hnd' : (s.upds ++ [s.cur]).Nodup := nodup_snoc hnd hcu
        have hub' : ∀ j ∈ s.upds ++ [s.cur], j < s.heap.length := by
          intro j hj
          rcases List.mem_append.mp hj with hj1 | hj2
          · exact hub j hj1
          · rcases List.mem_singleton.mp hj2 with rfl
            exact hcl
        refine ⟨⟨hnd', ?_, ?_, ?_⟩, ⟨[s.cur], rfl⟩, ?_⟩
        · intro hmem
          exact absurd (hub' _ hmem) (by omega)
        · simp
        · intro j hj
          have := hub' j hj
          simp only [List.length_append, List.length_cons, List.length_nil]
          omega
        · intro j hj
          exact getD_append_lt (hub j hj) _ _
      · rw [if_neg hfl]
        refine ⟨⟨hnd, ?_, ?_, ?_⟩, ⟨[], by simp⟩, ?_⟩
        · intro hmem
          exact absurd (hub _ hmem) (by omega)
        · simp
        · intro j hj
          have := hub j hj
          simp only [List.length_append, List.length_cons, List.length_nil]
          omega
        · intro j hj
          exact getD_append_lt (hub j hj) _ _
  rw [if_neg h4]
  have hset : ∀ (v : RawItem),
      ((s.upds.Nodup ∧ s.cur ∉ s.upds ∧ s.cur < (s.heap.set s.cur v).length ∧
        (∀ j ∈ s.upds, j < (s.heap.set s.cur v).length)) ∧
      (∃ add, s.upds = s.upds ++ add) ∧
      (∀ j ∈ s.upds, (s.heap.set s.cur v).getD j emptyRaw = s.heap.getD j emptyRaw)) := by
    intro v
    refine ⟨⟨hnd, hcu, ?_, ?_⟩, ⟨[], by simp⟩, ?_⟩
    · rw [List.length_set]; exact hcl
    · intro j hj; rw [List.length_set]; exact hub j hj
    · intro j hj
      have hne : s.cur ≠ j := fun he => hcu (he ▸ hj)
      exact getD_set_ne hne _ _ _
  by_cases h5 : strStarts "Title:".data (pstrip (contentOf l)) = true
  · rw [if_pos h5]; exact hset _
  rw [if_neg h5]
  by_cases h6 : strStarts "DOI:".data (pstrip (contentOf l)) = true
  · rw [if_pos h6]; exact hset _
  rw [if_neg h6]
  by_cases h7 : strStarts "Abstract:".data (pstrip (contentOf l)) = true
  · rw [if_pos h7]; exact hset _
  rw [if_neg h7]
  exact ⟨⟨hnd, hcu, hcl, hub⟩, ⟨[], by simp⟩, fun j _ => rfl⟩

theorem foldl_pstep_inv :
    ∀ (ls : List Str) (s : PState),
      (∀ l ∈ ls, strStarts "Processing [".data (contentOf l) = true →
        (searchProc (contentOf l)).isSome = true) →
      s.upds.Nodup → s.cur ∉ s.upds → s.cur < s.heap.length →
      (∀ j ∈ s.upds, j < s.heap.length) →
      (((List.foldl pstep s ls).upds.Nodup ∧
        (List.foldl pstep s ls).cur ∉ (List.foldl pstep s ls).upds ∧
        (List.foldl pstep s ls).cur < (List.foldl pstep s ls).heap.length ∧
        (∀ j ∈ (List.foldl pstep s ls).upds, j < (List.foldl pstep s ls).heap.length)) ∧
      (∃ add, (List.foldl pstep s ls).upds = s.upds ++ add) ∧
      (∀ j ∈ s.upds,
        (List.foldl pstep s ls).heap.getD j emptyRaw = s.heap.getD j emptyRaw)) := by
  intro ls
  induction ls with
  | nil =>
    intro s _ hnd hcu hcl hub
    exact ⟨⟨hnd, hcu, hcl, hub⟩, ⟨[], by simp⟩, fun j _ => rfl⟩
  | cons l ls' ih =>
    intro s hwf hnd hcu hcl hub
    have hstep := pstep_inv s l (hwf l (List.mem_cons_self l ls')) hnd hcu hcl hub
    obtain ⟨⟨hnd1, hcu1, hcl1, hub1⟩, ⟨add1, hadd1⟩, hfr1⟩ := hstep
    have hrest := ih (pstep s l) (fun x hx => hwf x (List.mem_cons_of_mem l hx))
      hnd1 hcu1 hcl1 hub1
    obtain ⟨hinv2, ⟨add2, hadd2⟩, hfr2⟩ := hrest
    refine ⟨hinv2, ⟨add1 ++ add2, ?_⟩, ?_⟩
    · show (List.foldl pstep (pstep s l) ls').upds = _
      rw [hadd2, hadd1, List.append_assoc]
    · intro j hj
      have hj1 : j ∈ (pstep s l).upds := by
        rw [hadd1]
        exact List.mem_append.mpr (Or.inl hj)
      show (List.foldl pstep (pstep s l) ls').heap.getD j emptyRaw = _
      rw [hfr2 j hj1, hfr1 j hj]

/-! ## Helper lemmas: log-stamp tolerance -/

theorem expectDigits_exact :
    ∀ (ds : Str) (n : Nat), ds.length = n → (∀ c ∈ ds, c.isDigit = true) →
      ∀ (r : Str), expectDigits n (ds ++ r) = some r := by
  intro ds
  induction ds with
  | nil =>
    intro n hn _ r
    subst hn
    rfl
  | cons c cs ih =>
    intro n hn hdig r
    subst hn
    show expectDigits (cs.length + 1) (c :: (cs ++ r)) = some r
    unfold expectDigits
    rw [if_pos (hdig c (List.mem_cons_self c cs))]
    exact ih cs.length rfl (fun x hx => hdig x (List.mem_cons_of_mem c hx)) r

theorem no_nl_stampOf {y mo dd hh mi ss ms : Str}
    (hg : goodStamp y mo dd hh mi ss ms) : '\n' ∉ stampOf y mo dd hh mi ss ms := by
  obtain ⟨_, hdig⟩ := hg
  have hy : '\n' ∉ y := fun hm => absurd (hdig '\n' (by simp [hm])) (by decide)
  have hmo : '\n' ∉ mo := fun hm => absurd (hdig '\n' (by simp [hm])) (by decide)
  have hdd : '\n' ∉ dd := fun hm => absurd (hdig '\n' (by simp [hm])) (by decide)
  have hhh : '\n' ∉ hh := fun hm => absurd (hdig '\n' (by simp [hm])) (by decide)
  have hmi : '\n' ∉ mi := fun hm => absurd (hdig '\n' (by simp [hm])) (by decide)
  have hss : '\n' ∉ ss := fun hm => absurd (hdig '\n' (by simp [hm])) (by decide)
  have hms : '\n' ∉ ms := fun hm => absurd (hdig '\n' (by simp [hm])) (by decide)
  unfold stampOf
  exact no_nl_append (no_nl_append (no_nl_append (no_nl_append (no_nl_append
    (no_nl_append (no_nl_append hy (no_nl_cons (by decide) hmo))
      (no_nl_cons (by decide) hdd)) (no_nl_cons (by decide) hhh))
        (no_nl_cons (by decide) hmi)) (no_nl_cons (by decide) hss))
          (no_nl_cons (by decide) hms)) (by decide)

theorem matchLogStamp_stamped {y mo dd hh mi ss ms : Str}
    (hg : goodStamp y mo dd hh mi ss ms) (l : Str) (hnl : '\n' ∉ l) :
    matchLogStamp (stampOf y mo dd hh mi ss ms ++ l) = some l := by
  obtain ⟨⟨hy, hmo, hdd, hhh, hmi, hss, hms⟩, hdig⟩ := hg
  have hdy : ∀ c ∈ y, c.isDigit = true := fun c hc => hdig c (by simp [hc])
  have hdmo : ∀ c ∈ mo, c.isDigit = true := fun c hc => hdig c (by simp [hc])
  have hddd : ∀ c ∈ dd, c.isDigit = true := fun c hc => hdig c (by simp [hc])
  have hdhh : ∀ c ∈ hh, c.isDigit = true := fun c hc => hdig c (by simp [hc])
  have hdmi : ∀ c ∈ mi, c.isDigit = true := fun c hc => hdig c (by simp [hc])
  have hdss : ∀ c ∈ ss, c.isDigit = true := fun c hc => hdig c (by simp [hc])
  have hdms : ∀ c ∈ ms, c.isDigit = true := fun c hc => hdig c (by simp [hc])
  have hre : stampOf y mo dd hh mi ss ms ++ l
      = y ++ '-' :: (mo ++ '-' :: (dd ++ ' ' :: (hh ++ ':' :: (mi ++ ':' ::
          (ss ++ ',' :: (ms ++ (" - INFO - ".data ++ l))))))) := by
    simp [stampOf]
  rw [hre]
  have hlit : dropLit " - INFO - ".data (" - INFO - ".data ++ l) = some l := by
    unfold dropLit
    rw [if_pos (strStarts_append_self _ _), List.drop_left]
  unfold matchLogStamp
  simp only [expectDigits_exact y 4 hy hdy,
    expectDigits_exact mo 2 hmo hdmo,
    expectDigits_exact dd 2 hdd hddd,
    expectDigits_exact hh 2 hhh hdhh,
    expectDigits_exact mi 2 hmi hdmi,
    expectDigits_exact ss 2 hss hdss,
    expectDigits_exact ms 3 hms hdms, hlit]
  unfold dollarAny
  rw [if_neg hnl]

theorem contentOf_stamped {y mo dd hh mi ss ms : Str}
    (hg : goodStamp y mo dd hh mi ss ms) (l : Str) (hnl : '\n' ∉ l)
    (hns : matchLogStamp l = none) :
    contentOf (stampOf y mo dd hh mi ss ms ++ l) = contentOf l := by
  unfold contentOf
  simp only [rstripNl_eq (no_nl_append (no_nl_stampOf hg) hnl), rstripNl_eq hnl,
    matchLogStamp_stamped hg l hnl, hns]

theorem pstep_stamped {y mo dd hh mi ss ms : Str}
    (hg : goodStamp y mo dd hh mi ss ms) (s : PState) (l : Str) (hnl : '\n' ∉ l)
    (hns : matchLogStamp l = none) :
    pstep s (stampOf y mo dd hh mi ss ms ++ l) = pstep s l := by
  unfold pstep
  rw [contentOf_stamped hg l hnl hns]

theorem runParse_stamped {y mo dd hh mi ss ms : Str}
    (hg : goodStamp y mo dd hh mi ss ms) :
    ∀ (lines : List Str) (s : PState),
      (∀ l ∈ lines, '\n' ∉ l ∧ matchLogStamp l = none) →
      List.foldl pstep s (lines.map (fun l => stampOf y mo dd hh mi ss ms ++ l))
        = List.foldl pstep s lines := by
  intro lines
  induction lines with
  | nil => intro s _; rfl
  | cons l ls ih =>
    intro s h
    show List.foldl pstep (pstep s (stampOf y mo dd hh mi ss ms ++ l)) _ = _
    rw [pstep_stamped hg s l (h l (List.mem_cons_self l ls)).1
      (h l (List.mem_cons_self l ls)).2]
    exact ih (pstep s l) (fun x hx => h x (List.mem_cons_of_mem l hx))

/-! ## Claim theorems -/

/-- C1 counterexample: a ledger file that exists but parses to zero
qualifying entries sends `run()` to discovery mode, not replay mode — the
mode switch tests the parsed result's truthiness, not bare file existence. -/
theorem c1_mode_counterexample :
    (some (List.map String.data ["Processing [1/1] A", "  Title: T"])).isSome = true ∧
    parseLines (List.map String.data ["Processing [1/1] A", "  Title: T"]) = [] ∧
    run_mode (some (List.map String.data ["Processing [1/1] A", "  Title: T"]))
      = RunMode.discovery := by
  refine ⟨rfl, by decide, by decide⟩

/-- C1 amended: the run is in replay mode exactly when the ledger file
exists and parses to at least one qualifying entry; a missing file, and
equally an existing file with no qualifying entries, fall back to
discovery mode. -/
theorem c1_mode_amended (file : Option (List Str)) :
    run_mode file = RunMode.replay ↔ ∃ lines, file = some lines ∧ parseLines lines ≠ [] := by
  cases file with
  | none =>
    simp only [run_mode, parse_abstract_updates_file, optTruthy]
    constructor
    · intro h
      exact absurd h (by decide)
    · rintro ⟨lines, hl, _⟩
      cases hl
  | some lines =>
    simp only [run_mode, parse_abstract_updates_file]
    by_cases hu : parseLines lines = []
    · simp [hu, optTruthy]
    · simp [hu, optTruthy]

/-- C2 counterexample: `clean_doi` is not idempotent — on `"10.1/x. "` the
first pass strips only the trailing space (punctuation stripping runs
before whitespace stripping), leaving a trailing dot the second pass then
removes. -/
theorem c2_normalize_counterexample :
    clean_doi (clean_doi "10.1/x. ".data) ≠ clean_doi "10.1/x. ".data ∧
    clean_doi "10.1/x. ".data = "10.1/x.".data ∧
    clean_doi (clean_doi "10.1/x. ".data) = "10.1/x".data := by
  refine ⟨by decide, by decide, by decide⟩

/-- C2 amended: `clean_doi` strips a resolver URL, a case-insensitive
`doi:` label, trailing `.,;:` punctuation and surrounding whitespace, with
`clean_doi "DOI:10.1/ABC." = "10.1/ABC"`; it is idempotent on every input
whose first-pass output no longer starts with a resolver URL or `doi:`
label and no longer ends in `.,;:` (but not on all inputs). -/
theorem c2_normalize_amended :
    clean_doi "DOI:10.1/ABC.".data = "10.1/ABC".data ∧
    ∀ x : Str,
      (∀ p ∈ resolverForms, strStarts p (clean_doi x) = false) →
      stripDoiLabel (clean_doi x) = clean_doi x →
      (∀ c, (clean_doi x).getLast? = some c → isTrailPunct c = false) →
      clean_doi (clean_doi x) = clean_doi x := by
  refine ⟨by decide, ?_⟩
  intro x h1 h2 h3
  have hres : stripResolver (clean_doi x) = clean_doi x := by
    unfold stripResolver
    have hfind : resolverForms.find? (fun p => strStarts p (clean_doi x)) = none := by
      rw [List.find?_eq_none]
      intro p hp
      simp [h1 p hp]
    rw [hfind]
  have hpunct : rdropWhile isTrailPunct (clean_doi x) = clean_doi x := by
    rcases List.eq_nil_or_concat (clean_doi x) with hnil | ⟨xs, c, hcat⟩
    · rw [hnil]; rfl
    · rw [List.concat_eq_append] at hcat
      have hc : isTrailPunct c = false := by
        apply h3
        rw [hcat]
        simp
      rw [hcat]
      exact rdropWhile_concat_neg hc xs
  show pstrip (rdropWhile isTrailPunct (stripDoiLabel (stripResolver (clean_doi x))))
    = clean_doi x
  rw [hres, h2, hpunct]
  show pstrip (pstrip (rdropWhile isTrailPunct (stripDoiLabel (stripResolver x))))
    = clean_doi x
  rw [pstrip_idem]
  rfl

/-- C2 witness: the amended idempotence applied at `"doi:10.1/abc"`. -/
theorem c2_normalize_witness :
    (∀ p ∈ resolverForms, strStarts p (clean_doi "doi:10.1/abc".data) = false) ∧
    stripDoiLabel (clean_doi "doi:10.1/abc".data) = clean_doi "doi:10.1/abc".data ∧
    (∀ c, (clean_doi "doi:10.1/abc".data).getLast? = some c → isTrailPunct c = false) ∧
    clean_doi (clean_doi "doi:10.1/abc".data) = clean_doi "doi:10.1/abc".data :=
  ⟨by decide, by decide, by decide,
    c2_normalize_amended.2 "doi:10.1/abc".data (by decide) (by decide) (by decide)⟩

/-- C3 counterexample: serializing an entry whose title carries a trailing
space (legal under the claim, which only excludes embedded newlines) and
reparsing yields a different title — the parser strips field values. -/
theorem c3_roundtrip_counterexample :
    noNlEntry ⟨"A".data, "T ".data, "D".data, "X".data⟩ ∧
    parseLines (serializeEntries [⟨"A".data, "T ".data, "D".data, "X".data⟩])
      ≠ dicts [⟨"A".data, "T ".data, "D".data, "X".data⟩] ∧
    parseLines (serializeEntries [⟨"A".data, "T ".data, "D".data, "X".data⟩])
      = dicts [⟨"A".data, "T".data, "D".data, "X".data⟩] := by
  refine ⟨by decide, by decide, by decide⟩

/-- C3 amended: serializing `N ≥ 0` entries and reparsing yields exactly the
`N` original entries provided each entry has no embedded newline, a
nonempty citation, and title/identifier/abstract values that are unchanged
by whitespace-stripping. -/
theorem c3_roundtrip_amended (es : List LedgerEntry) (h : goodList es) :
    parseLines (serializeEntries es) = dicts es ∧
    (parseLines (serializeEntries es)).length = es.length := by
  refine ⟨parse_serializeEntries es h, ?_⟩
  rw [parse_serializeEntries es h, dicts_length]

/-- C3 witness: the amended round-trip applied to one concrete entry. -/
theorem c3_roundtrip_witness :
    goodList [⟨"Smith 2020".data, "A Title".data, "10.1/x".data, "Words here.".data⟩] ∧
    parseLines (serializeEntries
        [⟨"Smith 2020".data, "A Title".data, "10.1/x".data, "Words here.".data⟩])
      = dicts [⟨"Smith 2020".data, "A Title".data, "10.1/x".data, "Words here.".data⟩] :=
  ⟨by decide,
    (c3_roundtrip_amended
      [⟨"Smith 2020".data, "A Title".data, "10.1/x".data, "Words here.".data⟩]
      (by decide)).1⟩

/-- C4 counterexample: on an input whose fifth line starts with
`Processing [` but carries no full `[n/m] citation` marker, the complete
previous entry is flushed but `current_item` is not replaced, so the next
well-formed marker flushes the same dict a second time — reference 1 is
appended twice. -/
theorem c4_flush_counterexample :
    parseRefs badMarkerInput = [1, 1, 2] ∧ ¬ (parseRefs badMarkerInput).Nodup := by
  refine ⟨by decide, by decide⟩

/-- C4 amended: when every line whose content starts with `Processing [`
carries a full `Processing [n/m] citation` marker, no dict reference is
appended to the result more than once, and once a reference has been
flushed its dict is never modified by later lines (field lines only touch
the current, unflushed dict). -/
theorem c4_flush_amended (lines : List Str) (hwf : wfLines lines) :
    (parseRefs lines).Nodup ∧
    ∀ k m j, k ≤ m → j ∈ (stateAfter lines k).upds →
      j ∈ (stateAfter lines m).upds ∧
      (stateAfter lines m).heap.getD j emptyRaw
        = (stateAfter lines k).heap.getD j emptyRaw := by
  have hinit : (initPS.upds.Nodup ∧ initPS.cur ∉ initPS.upds ∧
      initPS.cur < initPS.heap.length ∧ ∀ j ∈ initPS.upds, j < initPS.heap.length) :=
    ⟨List.nodup_nil, by simp [initPS], by decide, by simp [initPS]⟩
  constructor
  · have hall := foldl_pstep_inv lines initPS (fun l hl => hwf l hl)
      hinit.1 hinit.2.1 hinit.2.2.1 hinit.2.2.2
    obtain ⟨⟨hnd, hcu, _, _⟩, _, _⟩ := hall
    unfold parseRefs runParse finalRefs
    by_cases hfl : isComplete ((List.foldl pstep initPS lines).heap.getD
        (List.foldl pstep initPS lines).cur emptyRaw) = true
    · rw [if_pos hfl]
      exact nodup_snoc hnd hcu
    · rw [if_neg hfl]
      exact hnd
  · intro k m j hkm hj
    have hksub : ∀ l ∈ lines.take k, strStarts "Processing [".data (contentOf l) = true →
        (searchProc (contentOf l)).isSome = true :=
      fun l hl => hwf l (List.Sublist.mem hl (List.take_sublist k lines))
    have hstatek := foldl_pstep_inv (lines.take k) initPS hksub
      hinit.1 hinit.2.1 hinit.2.2.1 hinit.2.2.2
    obtain ⟨⟨hnd_k, hcu_k, hcl_k, hub_k⟩, _, _⟩ := hstatek
    have hsplit : lines.take m = lines.take k ++ (lines.drop k).take (m - k) := by
      rw [← List.take_add]
      congr 1
      omega
    have hsegsub : ∀ l ∈ (lines.drop k).take (m - k),
        strStarts "Processing [".data (contentOf l) = true →
        (searchProc (contentOf l)).isSome = true := by
      intro l hl
      exact hwf l (List.Sublist.mem
        (List.Sublist.mem hl (List.take_sublist _ _)) (List.drop_sublist k lines))
    have hseg := foldl_pstep_inv ((lines.drop k).take (m - k)) (stateAfter lines k)
      hsegsub hnd_k hcu_k hcl_k hub_k
    obtain ⟨_, ⟨add, hadd⟩, hfrozen⟩ := hseg
    have hm : stateAfter lines m
        = List.foldl pstep (stateAfter lines k) ((lines.drop k).take (m - k)) := by
      unfold stateAfter
      rw [hsplit, List.foldl_append]
    constructor
    · rw [hm, hadd]
      exact List.mem_append.mpr (Or.inl hj)
    · rw [hm]
      exact hfrozen j hj

/-- C4 witness: the amended no-duplicate-flush property on a concrete
well-formed ledger. -/
theorem c4_flush_witness :
    wfLines (List.map String.data
      ["Processing [1/2] A", "  DOI: D", "  Abstract: X",
       "Processing [2/2] B", "  DOI: D2", "  Abstract: X2"]) ∧
    (parseRefs (List.map String.data
      ["Processing [1/2] A", "  DOI: D", "  Abstract: X",
       "Processing [2/2] B", "  DOI: D2", "  Abstract: X2"])).Nodup :=
  ⟨by decide,
    (c4_flush_amended (List.map String.data
      ["Processing [1/2] A", "  DOI: D", "  Abstract: X",
       "Processing [2/2] B", "  DOI: D2", "  Abstract: X2"]) (by decide)).1⟩

/-- C5 counterexample: an input whose final `Processing` marker is followed
only by a Title line (the claim's scenario) but whose first entry is also
incomplete parses to zero entries, not `markers - 1 = 1`. -/
theorem c5_drop_counterexample :
    countMarkers (List.map String.data
      ["Processing [1/2] A", "  Title: T1", "Processing [2/2] B", "  Title: T2"]) = 2 ∧
    (parseLines (List.map String.data
      ["Processing [1/2] A", "  Title: T1", "Processing [2/2] B", "  Title: T2"])).length
      = 0 := by
  refine ⟨by decide, by decide⟩

/-- C5 amended: an entry still missing its identifier or abstract when the
next well-formed marker or end of input arrives is dropped; concretely, for
a ledger of complete well-formed entries followed by a final marker and
only a Title line, the parse yields exactly the earlier entries — one fewer
than the count of `Processing` markers. -/
theorem c5_drop_amended (es : List LedgerEntry) (c t : Str) (h : goodList es)
    (hc : c ≠ []) (hnc : '\n' ∉ c) (hti : pstrip t = t) (htn : '\n' ∉ t) :
    countMarkers (serializeEntries es
        ++ ["Processing [".data ++ (natDigits (es.length + 1) ++ '/' ::
              (natDigits (es.length + 1) ++ ']' :: ' ' :: c)),
            "  Title: ".data ++ t])
      = es.length + 1 ∧
    (parseLines (serializeEntries es
        ++ ["Processing [".data ++ (natDigits (es.length + 1) ++ '/' ::
              (natDigits (es.length + 1) ++ ']' :: ' ' :: c)),
            "  Title: ".data ++ t]))
      = dicts es ∧
    (parseLines (serializeEntries es
        ++ ["Processing [".data ++ (natDigits (es.length + 1) ++ '/' ::
              (natDigits (es.length + 1) ++ ']' :: ' ' :: c)),
            "  Title: ".data ++ t])).length
      = es.length := by
  refine ⟨countMarkers_trailing es c t, parse_serialize_trailing es c t h hc hnc hti htn, ?_⟩
  rw [parse_serialize_trailing es c t h hc hnc hti htn, dicts_length]

/-- C5 witness: the amended drop property on one complete entry followed by
a Title-only trailing entry. -/
theorem c5_drop_witness :
    countMarkers (serializeEntries [⟨"A".data, "T".data, "D".data, "X".data⟩]
        ++ ["Processing [".data ++ (natDigits 2 ++ '/' :: (natDigits 2 ++ ']' :: ' ' :: "B".data)),
            "  Title: ".data ++ "T2".data])
      = 2 ∧
    (parseLines (serializeEntries [⟨"A".data, "T".data, "D".data, "X".data⟩]
        ++ ["Processing [".data ++ (natDigits 2 ++ '/' :: (natDigits 2 ++ ']' :: ' ' :: "B".data)),
            "  Title: ".data ++ "T2".data])).length
      = 1 :=
  ⟨(c5_drop_amended [⟨"A".data, "T".data, "D".data, "X".data⟩] "B".data "T2".data
      (by decide) (by decide) (by decide) (by decide) (by decide)).1,
    (c5_drop_amended [⟨"A".data, "T".data, "D".data, "X".data⟩] "B".data "T2".data
      (by decide) (by decide) (by decide) (by decide) (by decide)).2.2⟩

/-- C6 counterexample: prefixing every line with a fresh well-formed log
stamp is not transparent when a line itself begins with stamp-shaped text —
only one stamp layer is stripped, so a stamped field line is skipped. -/
theorem c6_stamp_counterexample :
    goodStamp "2026".data "01".data "01".data "00".data "00".data "00".data "000".data ∧
    parseLines ((List.map String.data
        ["Processing [1/1] A",
         "2025-12-22 16:11:52,549 - INFO -   DOI: D",
         "2025-12-22 16:11:52,549 - INFO -   Abstract: X"]).map
      (fun l => stampOf "2026".data "01".data "01".data "00".data "00".data "00".data
        "000".data ++ l))
      ≠ parseLines (List.map String.data
        ["Processing [1/1] A",
         "2025-12-22 16:11:52,549 - INFO -   DOI: D",
         "2025-12-22 16:11:52,549 - INFO -   Abstract: X"]) := by
  refine ⟨by decide, by decide⟩

/-- C6 amended: prefixing every line with one uniform well-formed log stamp
leaves the parse result unchanged, provided the underlying lines contain no
newline and do not themselves begin with stamp-shaped text. -/
theorem c6_stamp_amended (y mo dd hh mi ss ms : Str) (lines : List Str)
    (hg : goodStamp y mo dd hh mi ss ms)
    (hl : ∀ l ∈ lines, '\n' ∉ l ∧ matchLogStamp l = none) :
    parseLines (lines.map (fun l => stampOf y mo dd hh mi ss ms ++ l))
      = parseLines lines := by
  unfold parseLines parseRefs runParse
  rw [runParse_stamped hg lines initPS hl]

/-- C6 witness: stamp transparency on a concrete three-line ledger. -/
theorem c6_stamp_witness :
    goodStamp "2026".data "01".data "01".data "00".data "00".data "00".data "000".data ∧
    parseLines ((List.map String.data
        ["Processing [1/1] A", "  DOI: D", "  Abstract: X"]).map
      (fun l => stampOf "2026".data "01".data "01".data "00".data "00".data "00".data
        "000".data ++ l))
      = parseLines (List.map String.data
        ["Processing [1/1] A", "  DOI: D", "  Abstract: X"]) :=
  ⟨by decide,
    c6_stamp_amended "2026".data "01".data "01".data "00".data "00".data "00".data "000".data
      (List.map String.data ["Processing [1/1] A", "  DOI: D", "  Abstract: X"])
      (by decide) (by decide)⟩

/-- C7: the replay matching logic equals the specification's resolution
procedure — cleaned identifier against the map (built from cleaned and raw
identifiers of every record with a usable identifier), then the raw
identifier, then the first case-folded whitespace-trimmed title match, else
unmatched (`none`, total — no exception); with the concrete
normalized-match, title-fallback and unmatched scenarios. -/
theorem c7_reconciliation :
    (∀ (d t : Str) (items : List ZItem),
      find_matching_item d t items = resolveSpec d t items) ∧
    find_matching_item "https://doi.org/10.1/X.".data "zz".data [itemX] = some itemX ∧
    find_matching_item "WRONG".data " the title ".data [itemX] = some itemX ∧
    find_matching_item "WRONG".data "Other".data [itemX] = none := by
  refine ⟨?_, by decide, by decide, by decide⟩
  intro d t items
  unfold find_matching_item resolveSpec
  rcases h1 : dictGet (build_doi_map items) (clean_doi d) with _ | it1
  · rcases h2 : dictGet (build_doi_map items) d with _ | it2
    · simp only [h1, h2, Option.orElse]
      rcases h3 : items.find? (fun it => titleKey it.title = titleKey t) with _ | it3 <;>
        simp [h3]
    · simp [h1, h2, Option.orElse]
  · simp [h1, Option.orElse]

/-- C8: in preview (dry-run) mode `update_zotero_abstract` issues no write
call, leaves any library state unchanged, increments the updated counter by
exactly one, leaves the error counter alone, and reports success. -/
theorem c8_preview_apply (k : Str) (v : Nat) (a : Str) (dta : ItemData)
    (wOk : Bool) (st : Stats) (lib : List WritePayload) :
    (update_zotero_abstract k v a dta true wOk st).writes = [] ∧
    applyWrites lib (update_zotero_abstract k v a dta true wOk st).writes = lib ∧
    (update_zotero_abstract k v a dta true wOk st).stats.abstracts_updated
      = st.abstracts_updated + 1 ∧
    (update_zotero_abstract k v a dta true wOk st).stats.errors = st.errors ∧
    (update_zotero_abstract k v a dta true wOk st).ok = true :=
  ⟨rfl, rfl, rfl, rfl, rfl⟩

/-- C9: the segmenter returns an abstract only when the cleaned candidate's
word count is strictly between 50 and 1000, trying start markers in
priority order and returning `none` when all are exhausted; a text whose
only abstract-like span is 30 words yields no result. -/
theorem c9_segmenter_bounds :
    (∀ (text a : Str), find_abstract_in_text text = some a →
      50 < wordCount a ∧ wordCount a < 1000) ∧
    find_abstract_in_text ("Abstract: ".data ++ repWords 30) = none := by
  refine ⟨?_, by decide⟩
  intro text a h
  exact segLoop_bounds startMarkers text a h

/-- C9 witness: a 60-word abstract is returned and the bounds hold for it. -/
theorem c9_segmenter_witness :
    find_abstract_in_text ("Abstract: ".data ++ repWords 60) = some (repWords 60) ∧
    50 < wordCount (repWords 60) ∧ wordCount (repWords 60) < 1000 :=
  ⟨by decide,
    c9_segmenter_bounds.1 ("Abstract: ".data ++ repWords 60) (repWords 60) (by decide)⟩

/-- C10: the cleaner collapses every whitespace run to a single space, so
no character of a cleaned abstract is a newline (any whitespace in it is a
plain space), and every abstract the segmenter returns contains no newline
— it is safe for the line-oriented ledger serialization. -/
theorem c10_single_line :
    (∀ (t : Str) (ch : Char), ch ∈ clean_abstract t →
      ch ≠ '\n' ∧ (isWs ch = true → ch = ' ')) ∧
    (∀ (text a : Str), find_abstract_in_text text = some a → '\n' ∉ a) := by
  have hpart1 : ∀ (t : Str) (ch : Char), ch ∈ clean_abstract t →
      ch ≠ '\n' ∧ (isWs ch = true → ch = ' ') := by
    intro t ch hm
    constructor
    · intro heq
      subst heq
      have := clean_abstract_chars hm (by decide)
      exact absurd this (by decide)
    · exact clean_abstract_chars hm
  refine ⟨hpart1, ?_⟩
  intro text a hf hm
  obtain ⟨x, hx⟩ := segLoop_clean startMarkers text a hf
  subst hx
  exact absurd rfl (hpart1 x '\n' hm).1

/-- C10 witness: the no-newline guarantee applied to the segmenter's output
on a concrete text. -/
theorem c10_single_line_witness :
    find_abstract_in_text ("Abstract: ".data ++ repWords 60) = some (repWords 60) ∧
    '\n' ∉ repWords 60 :=
  ⟨by decide,
    c10_single_line.2 ("Abstract: ".data ++ repWords 60) (repWords 60) (by decide)⟩
